import Mathlib

/-!
Shallow embedding of the directory subsystem of the VFS (src/vfs/directory.go).

Strings are modelled as Lean `String`s; every string operation used by the
source (Go `strings.HasPrefix`, slicing, `len`, and the `path` package's
`Clean`, `Join`, `Dir`, `IsAbs`) is given an explicit definition over
`String.data : List Char`, i.e. strings are sequences of characters.  Go
indexes bytes while the model indexes characters; the two agree on every
index computation the source performs, because the source only ever slices
immediately after a verified literal prefix.

The document store (couchdb) is modelled as a list of documents with a
fresh-id counter; revisions are natural numbers compared for equality
(opaque optimistic-concurrency tokens).  The physical store (afero.Fs) is
modelled as the list of existing paths.  Identifiers are natural numbers
(opaque store-assigned tokens); the root sentinel is the reserved id 0.

The goroutine fan-out of `bulkUpdateDocsPath` is determinised: the
dispatched units are executed in list order, and the error bookkeeping of
the source (`if e := <-errc; e != nil { err = e }`, i.e. the last non-nil
error received wins) is kept.
-/

namespace Vfs

/-! ## Character-list path primitives (model of Go `path` and `strings`) -/

/-- Model of Go `strings.HasPrefix s pre`. -/
def hasPrefStr (s pre : String) : Bool :=
  pre.data.isPrefixOf s.data

/-- Model of Go `len` (character level, see the header comment). -/
def strLen (s : String) : Nat :=
  s.data.length

/-- Model of the Go slice `s[n:]` (character level). -/
def strDrop (s : String) (n : Nat) : String :=
  ⟨s.data.drop n⟩

/-- Model of Go `path.IsAbs`: nonempty and starting with a slash. -/
def isAbs (p : String) : Bool :=
  p.data.head? = some '/'

/-- Splits a character list at every slash; the slashes are dropped and the
(possibly empty) runs between them are kept, exactly like Go
`strings.Split(s, "/")`. -/
def splitOnSlash : List Char → List (List Char)
  | [] => [[]]
  | c :: rest =>
    if c = '/' then [] :: splitOnSlash rest
    else
      match splitOnSlash rest with
      | [] => [[c]]
      | h :: t => (c :: h) :: t

/-- Interleaves a slash between segments (Go `strings.Join(segs, "/")`). -/
def joinSegs : List (List Char) → List Char
  | [] => []
  | [s] => s
  | s :: rest => s ++ '/' :: joinSegs rest

/-- Builds a rooted path from segments: each segment is preceded by a slash.
`catSegs [a, b]` is `/a/b`; `catSegs []` is the empty list (the root path
`"/"` is treated separately). -/
def catSegs : List (List Char) → List Char
  | [] => []
  | s :: rest => '/' :: s ++ catSegs rest

/-- The element processing loop of Go `path.Clean`: empty and `.` segments
are dropped, `..` pops the last kept segment (and vanishes at the top of a
rooted path). -/
def cleanCore (rooted : Bool) (segs : List (List Char)) : List (List Char) :=
  (segs.foldl
    (fun st seg =>
      if seg = [] ∨ seg = ['.'] then st
      else if seg = ['.', '.'] then
        match st with
        | [] => if rooted then [] else [['.', '.']]
        | top :: rest => if top = ['.', '.'] then seg :: st else rest
      else seg :: st)
    []).reverse

/-- Model of Go `path.Clean` on character lists. -/
def cleanL (p : List Char) : List Char :=
  if p = [] then ['.']
  else
    let rooted := p.head? = some '/'
    let segs := cleanCore rooted (splitOnSlash p)
    if rooted then
      if segs = [] then ['/'] else catSegs segs
    else
      if segs = [] then ['.'] else joinSegs segs

/-- Model of Go `path.Clean`. -/
def cleanStr (p : String) : String :=
  ⟨cleanL p.data⟩

/-- Model of the two-argument Go `path.Join`: the nonempty arguments are
joined with a slash and the result is cleaned; with no nonempty argument
the result is the empty string. -/
def pathJoin (a b : String) : String :=
  if a = "" ∧ b = "" then ""
  else if a = "" then cleanStr b
  else if b = "" then cleanStr a
  else cleanStr (a ++ "/" ++ b)

/-- Everything up to and including the final slash of `p` (empty when `p`
has no slash); the `dir` part of Go `path.Split`. -/
def dirPartL (p : List Char) : List Char :=
  ((p.reverse.dropWhile (fun c => c ≠ '/')).reverse)

/-- Model of Go `path.Dir`: the part before the final slash, cleaned. -/
def pathDir (p : String) : String :=
  cleanStr ⟨dirPartL p.data⟩

/-- A good path segment: nonempty, not a dot name, and slash-free.  These
are exactly the strings `path.Clean` keeps verbatim as segments. -/
def goodSegB (s : List Char) : Bool :=
  decide (s ≠ []) && decide (s ≠ ['.']) && decide (s ≠ ['.', '.']) && !(s.contains '/')

/-- Decides whether `p` is a cleaned absolute path: the root `"/"`, or a
slash followed by good slash-separated segments with no trailing slash. -/
def isCleanAbsStr (p : String) : Bool :=
  p = "/" ||
    (match splitOnSlash p.data with
     | [] :: segs => decide (segs ≠ []) && segs.all goodSegB
     | _ => false)

/-! ## Data model -/

/-- The couchdb document type of all VFS entries (`consts.FsDocType`). -/
def FsDocType : String := "io.cozy.files"

/-- The type discriminator of directory documents. -/
def DirType : String := "directory"

/-- The type discriminator of file documents. -/
def FileType : String := "file"

/-- The reserved identifier of the never-persisted root directory. -/
def RootFolderID : Nat := 0

/-- Directory document (the persisted fields of the Go `DirDoc` struct; the
transient unexported caches `parent`, `files`, `dirs` are represented
separately, see `LoadedDir`). -/
structure DirDoc where
  /-- Type discriminator (`type`). -/
  type : String
  /-- Store-assigned identifier (`_id`). -/
  objID : Nat
  /-- Revision token for optimistic concurrency (`_rev`). -/
  objRev : Nat
  /-- Directory name. -/
  name : String
  /-- Identifier of the containing directory (`folder_id`). -/
  folderID : Nat
  createdAt : Int
  updatedAt : Int
  /-- Denormalized absolute path on the VFS. -/
  path : String
  tags : List String
  deriving DecidableEq, Repr

/-- The error values surfaced by the modelled operations. -/
inductive Err where
  /-- `ErrParentDoesNotExist`. -/
  | parentDoesNotExist
  /-- `os.ErrNotExist` (returned by `GetDirDoc` on a non-directory document
  and by physical operations on missing entries). -/
  | notExist
  /-- `os.ErrExist` (physical entry already present). -/
  | exist
  /-- `ErrForbiddenDocMove`. -/
  | forbiddenDocMove
  /-- `ErrIllegalTime`. -/
  | illegalTime
  /-- `ErrIllegalFilename`. -/
  | illegalFileName
  /-- The `fmt.Errorf("paths should be absolute")` of `safeRenameDirectory`. -/
  | pathsShouldBeAbsolute
  /-- The `fmt.Errorf("Child has wrong base directory")` of the fan-out unit. -/
  | wrongBaseDir
  /-- couchdb optimistic-concurrency conflict (stale revision on update). -/
  | conflict
  /-- couchdb update of an id with no stored document. -/
  | docMissing
  /-- An operational failure of the external document store. -/
  | storeFailure
  deriving DecidableEq, Repr

/-- The revisioned document store: the stored documents plus the counter
from which fresh identifiers are assigned. -/
structure DB where
  docs : List DirDoc
  nextID : Nat
  deriving DecidableEq, Repr

/-- couchdb `GetDoc`: look a document up by its identifier. -/
def lookupDoc (db : DB) (id : Nat) : Option DirDoc :=
  db.docs.find? (fun d => d.objID = id)

/-- couchdb `CreateDoc`: assigns a fresh identifier and the initial
revision.  `fault` injects an operational failure of the external store
(modelled from the spec: the DocumentStore is an external collaborator
whose requests can fail). -/
def createDoc (db : DB) (fault : Bool) (doc : DirDoc) : Except Err (DB × DirDoc) :=
  if fault then .error .storeFailure
  else
    let stored := { doc with objID := db.nextID, objRev := 1 }
    .ok ({ db with docs := db.docs ++ [stored], nextID := db.nextID + 1 }, stored)

/-- couchdb `UpdateDoc`: compares the supplied revision with the stored one
(conflict on mismatch) and stores the document under a new revision. -/
def updateDoc (db : DB) (doc : DirDoc) : Except Err (DB × DirDoc) :=
  match lookupDoc db doc.objID with
  | none => .error .docMissing
  | some stored =>
    if stored.objRev ≠ doc.objRev then .error .conflict
    else
      let d' := { doc with objRev := doc.objRev + 1 }
      .ok ({ db with docs := db.docs.map (fun e => if e.objID = doc.objID then d' else e) }, d')

/-- The physical store: the set (list) of existing paths. -/
abbrev FS := List String

/-- Physical `Stat`: does an entry exist at `p`? -/
def fsStat (fs : FS) (p : String) : Bool :=
  fs.contains p

/-- Physical `Mkdir`: fails when an entry already exists at the path. -/
def fsMkdir (fs : FS) (p : String) : Except Err FS :=
  if fs.contains p then .error .exist else .ok (p :: fs)

/-- Physical `Remove` (the source ignores its error; the model is total). -/
def fsRemove (fs : FS) (p : String) : FS :=
  fs.filter (fun q => q ≠ p)

/-- Physical `Rename`: atomic; fails when the destination exists or the
source is missing; relocates the whole subtree under the source path. -/
def fsRename (fs : FS) (old new : String) : Except Err FS :=
  if fs.contains new then .error .exist
  else if ¬ fs.contains old then .error .notExist
  else .ok (fs.map (fun p =>
    if p = old then new
    else if hasPrefStr p (old ++ "/") then new ++ strDrop p (strLen old) else p))

/-! ## The directory operations -/

/-- Modelled from the spec: the synthetic, never-persisted root directory
(`getRootDirDoc`, declared outside the given source file); its path is
`"/"` and its identifier is the root sentinel. -/
def getRootDirDoc : DirDoc :=
  { type := DirType, objID := RootFolderID, objRev := 0, name := "",
    folderID := RootFolderID, createdAt := 0, updatedAt := 0, path := "/", tags := [] }

/-- Modelled from the spec: name validation (`checkFileName`, declared
outside the given source file): fails `InvalidName` on the empty name, on a
name containing the path separator, and on the reserved dot names (the
spec's path syntax admits no `.`/`..` segments). -/
def checkFileName (name : String) : Option Err :=
  if name = "" ∨ name.data.contains '/' ∨ name = "." ∨ name = ".." then
    some .illegalFileName
  else none

/-- Modelled from the spec: the tag union of `ModifyDirectoryMetadata`
(`appendTags`, declared outside the given source file): the union of the
current and the supplied tags, duplicates removed. -/
def appendTags (old new : List String) : List String :=
  old ++ (new.eraseDups.filter (fun t => ¬ old.contains t))

/-- A directory document together with its transient children caches (the
unexported `files`/`dirs` fields of the Go struct); the caches are empty
unless `FetchFiles` populated them. -/
structure LoadedDir where
  doc : DirDoc
  files : List DirDoc
  dirs : List DirDoc
  deriving DecidableEq, Repr

/-- `fetchChildren`: all documents whose `folder_id` is the parent's id,
up to the fixed page of 10, split into files and directories by type. -/
def fetchChildren (db : DB) (parent : DirDoc) : List DirDoc × List DirDoc :=
  let docs := (db.docs.filter (fun d => d.folderID = parent.objID)).take 10
  (docs.filter (fun d => d.type = FileType), docs.filter (fun d => d.type = DirType))

/-- `GetDirDoc`: the root sentinel returns the synthetic root; otherwise
the document is looked up by id (the not-found error is rewritten to
`ErrParentDoesNotExist`), rejected with `os.ErrNotExist` when its type
discriminator is not "directory", and its children are optionally fetched. -/
def getDirDoc (db : DB) (fileID : Nat) (withChildren : Bool) : Except Err LoadedDir :=
  if fileID = RootFolderID then .ok ⟨getRootDirDoc, [], []⟩
  else
    match lookupDoc db fileID with
    | none => .error .parentDoesNotExist
    | some doc =>
      if doc.type ≠ DirType then .error .notExist
      else if withChildren then
        let (fls, drs) := fetchChildren db doc
        .ok ⟨doc, fls, drs⟩
      else .ok ⟨doc, [], []⟩

/-- Modelled from the spec: the PathResolver (`getFilePath`, declared
outside the given source file): validates the name, resolves the parent
directory by id (`ParentMissing` when absent), and returns the cleaned
concatenation of the parent path and the name. -/
def getFilePath (db : DB) (name : String) (folderID : Nat) : Except Err (String × DirDoc) :=
  match checkFileName name with
  | some e => .error e
  | none =>
    match getDirDoc db folderID false with
    | .error e => .error e
    | .ok parent => .ok (pathJoin parent.doc.path name, parent.doc)

/-- `NewDirDoc`: the validating constructor.  `now` stands for
`time.Now()`; both timestamps are set to it. -/
def newDirDoc (now : Int) (name : String) (folderID : Nat) (tags : List String) :
    Except Err DirDoc :=
  match checkFileName name with
  | some e => .error e
  | none =>
    .ok { type := DirType, objID := 0, objRev := 0, name := name, folderID := folderID,
          createdAt := now, updatedAt := now, path := "", tags := tags }

/-- `CreateDirectory`: resolves the path, creates the physical directory
(fails when an entry already exists there), and persists the document; when
persistence fails the deferred compensation removes the just-created
physical directory.  `fault` injects a document-store failure. -/
def createDirectory (db : DB) (fs : FS) (fault : Bool) (doc : DirDoc) :
    Except Err DirDoc × DB × FS :=
  match getFilePath db doc.name doc.folderID with
  | .error e => (.error e, db, fs)
  | .ok (pth, _) =>
    match fsMkdir fs pth with
    | .error e => (.error e, db, fs)
    | .ok fs1 =>
      let doc := { doc with path := pth }
      match createDoc db fault doc with
      | .error e => (.error e, db, fsRemove fs1 pth)
      | .ok (db', stored) => (.ok stored, db', fs1)

/-- `safeRenameDirectory`: cleans both paths, requires them absolute,
forbids a destination inside the source subtree, forbids an existing
destination, and performs the physical rename. -/
def safeRenameDirectory (oldpath newpath : String) (fs : FS) : Except Err FS :=
  let np := cleanStr newpath
  let op := cleanStr oldpath
  if ¬ (isAbs np ∧ isAbs op) then .error .pathsShouldBeAbsolute
  else if hasPrefStr np (op ++ "/") then .error .forbiddenDocMove
  else if fsStat fs np then .error .exist
  else fsRename fs op np

/-- One dispatched unit of the descendant fan-out (the goroutine body of
`bulkUpdateDocsPath`): re-checks the prefix, rewrites the path by prefix
substitution, and persists the document with its own revision.  On failure
the store is left unchanged. -/
def updateChildStep (oldpath newpath : String) (db : DB) (child : DirDoc) :
    Option Err × DB :=
  if ¬ hasPrefStr child.path (oldpath ++ "/") then (some .wrongBaseDir, db)
  else
    let child' := { child with path := pathJoin newpath (strDrop child.path (strLen oldpath + 1)) }
    match updateDoc db child' with
    | .error e => (some e, db)
    | .ok (db', _) => (none, db')

/-- One round of the fan-in loop: run the unit against the current store
and keep the unit's error when it has one (`if e != nil { err = e }`: the
last non-nil error wins). -/
def bulkStep (oldpath newpath : String) (acc : Option Err × DB) (child : DirDoc) :
    Option Err × DB :=
  let (e, db') := updateChildStep oldpath newpath acc.2 child
  (match e with
   | some err => some err
   | none => acc.1, db')

/-- The fan-out over an already-queried children list: every unit runs (the
source waits on the error channel once per child), and of the unit errors
the last non-nil one received is kept as the overall error. -/
def bulkUpdateChildren (oldpath newpath : String) (children : List DirDoc) (db : DB) :
    Option Err × DB :=
  children.foldl (bulkStep oldpath newpath) (none, db)

/-- `bulkUpdateDocsPath`: queries every document whose path extends the
cleaned old path by a slash and dispatches one fix-up unit per match. -/
def bulkUpdateDocsPath (db : DB) (olddoc : DirDoc) (newpath : String) : Option Err × DB :=
  let oldpath := cleanStr olddoc.path
  let children := db.docs.filter (fun d => hasPrefStr d.path (oldpath ++ "/"))
  if children = [] then (none, db)
  else bulkUpdateChildren oldpath newpath children db

/-- The sparse update descriptor of `ModifyDirectoryMetadata`
(`DocMetaAttributes`, declared outside the given source file; the field
sentinels are those the source tests: the empty string for the name,
absent/null for the parent id, the tags and the timestamp). -/
structure DocMetaAttributes where
  name : String
  folderID : Option Nat
  tags : Option (List String)
  updatedAt : Option Int
  deriving DecidableEq, Repr

/-- `ModifyDirectoryMetadata`: recomputes path and fields from the sparse
descriptor, validates the timestamp and the name, physically renames when
the path changed, fans the path fix-up out over the descendants, and
persists the node's own document under its original revision. -/
def modifyDirectoryMetadata (db : DB) (fs : FS) (olddoc : DirDoc) (data : DocMetaAttributes) :
    Except Err DirDoc × DB × FS :=
  let step1 : Except Err (String × Nat) :=
    match data.folderID with
    | some f =>
      if f ≠ olddoc.folderID then
        match getFilePath db olddoc.name f with
        | .error e => .error e
        | .ok (p, _) => .ok (p, f)
      else .ok (olddoc.path, olddoc.folderID)
    | none => .ok (olddoc.path, olddoc.folderID)
  match step1 with
  | .error e => (.error e, db, fs)
  | .ok (pth1, folderID1) =>
    let name1 := if data.name ≠ "" then data.name else olddoc.name
    let pth2 := if data.name ≠ "" then pathJoin (pathDir pth1) data.name else pth1
    let tags1 := match data.tags with
      | some ts => appendTags olddoc.tags ts
      | none => olddoc.tags
    let mdate := match data.updatedAt with
      | some t => t
      | none => olddoc.updatedAt
    if mdate < olddoc.createdAt then (.error .illegalTime, db, fs)
    else
      match newDirDoc mdate name1 folderID1 tags1 with
      | .error e => (.error e, db, fs)
      | .ok nd =>
        let newdoc := { nd with
          objID := olddoc.objID
          objRev := olddoc.objRev
          createdAt := olddoc.createdAt
          updatedAt := mdate
          path := pth2 }
        let fsStep : Except Err FS :=
          if pth2 ≠ olddoc.path then safeRenameDirectory olddoc.path pth2 fs
          else .ok fs
        match fsStep with
        | .error e => (.error e, db, fs)
        | .ok fs' =>
          match bulkUpdateDocsPath db olddoc pth2 with
          | (some e, db1) => (.error e, db1, fs')
          | (none, db1) =>
            match updateDoc db1 newdoc with
            | .error e => (.error e, db1, fs')
            | .ok (db2, stored) => (.ok stored, db2, fs')

/-! ## Well-formedness and the path invariant -/

/-- The path of the directory containing `d`: the root path for the root
sentinel, otherwise the path of the directory document `d.folderID`
resolves to (none when it is absent or not a directory). -/
def parentPathOf (db : DB) (d : DirDoc) : Option String :=
  if d.folderID = RootFolderID then some "/"
  else
    match lookupDoc db d.folderID with
    | some p => if p.type = DirType then some p.path else none
    | none => none

/-- The cleaned concatenation of a parent path and a child name: a slash is
inserted, and the root's degenerate double slash is collapsed. -/
def concatPath (pp n : String) : String :=
  if pp = "/" then "/" ++ n else pp ++ "/" ++ n

/-- One directory document satisfies the path invariant: its parent
resolves, and its path is the cleaned concatenation of the parent path and
its name. -/
def dirPathOK (db : DB) (d : DirDoc) : Bool :=
  match parentPathOf db d with
  | some pp => d.path = concatPath pp d.name
  | none => false

/-- The tree path invariant: every stored directory document is the
cleaned concatenation of its parent's path and its own name. -/
def PathInv (db : DB) : Prop :=
  ∀ d ∈ db.docs, d.type = DirType → dirPathOK db d = true

/-- Per-document well-formedness: a cleaned absolute non-root path, a
valid (good-segment) name, and a non-sentinel identifier. -/
def docWF (d : DirDoc) : Bool :=
  isCleanAbsStr d.path && decide (d.path ≠ "/") && goodSegB d.name.data &&
    decide (d.objID ≠ RootFolderID)

/-- Store well-formedness: pairwise distinct identifiers and paths, and
per-document well-formedness. -/
def WFdb (db : DB) : Prop :=
  db.docs.Pairwise (fun a b => a.objID ≠ b.objID ∧ a.path ≠ b.path) ∧
    ∀ d ∈ db.docs, docWF d = true

instance (db : DB) : Decidable (PathInv db) := by
  unfold PathInv; infer_instance

instance (db : DB) : Decidable (WFdb db) := by
  unfold WFdb; infer_instance

/-! ## Example fixtures (shared by several concrete theorems) -/

/-- The "docs" directory of the spec's running example. -/
def exDocs : DirDoc :=
  { type := DirType, objID := 1, objRev := 1, name := "docs", folderID := RootFolderID,
    createdAt := 0, updatedAt := 0, path := "/docs", tags := [] }

/-- The "photos" directory under "docs" of the spec's running example. -/
def exPhotos : DirDoc :=
  { type := DirType, objID := 2, objRev := 1, name := "photos", folderID := 1,
    createdAt := 0, updatedAt := 0, path := "/docs/photos", tags := [] }

/-- A store holding the two example directories. -/
def exDb : DB := ⟨[exDocs, exPhotos], 3⟩

/-- The matching physical state. -/
def exFs : FS := ["/", "/docs", "/docs/photos"]

/-- A queried child snapshot that was concurrently relocated out of the
subtree: its path no longer extends the old base. -/
def exStale1 : DirDoc := { exPhotos with path := "/elsewhere/photos" }

/-- A queried child snapshot whose revision is stale with respect to the
store. -/
def exStale2 : DirDoc := { exPhotos with objRev := 7 }

/-- The node returned by renaming `exDocs` to "archive". -/
def exArchive : DirDoc :=
  { type := DirType, objID := 1, objRev := 2, name := "archive", folderID := RootFolderID,
    createdAt := 0, updatedAt := 0, path := "/archive", tags := [] }

/-- The "photos" document after the rename's descendant fix-up. -/
def exPhotosMoved : DirDoc :=
  { type := DirType, objID := 2, objRev := 2, name := "photos", folderID := 1,
    createdAt := 0, updatedAt := 0, path := "/archive/photos", tags := [] }

instance {α β : Type} [DecidableEq α] [DecidableEq β] : DecidableEq (Except α β) := fun x y =>
  match x, y with
  | .error a, .error b =>
    if h : a = b then isTrue (by rw [h]) else isFalse (fun hc => by injection hc; contradiction)
  | .ok a, .ok b =>
    if h : a = b then isTrue (by rw [h]) else isFalse (fun hc => by injection hc; contradiction)
  | .error _, .ok _ => isFalse (fun hc => by injection hc)
  | .ok _, .error _ => isFalse (fun hc => by injection hc)

/-! ## General lemmas about the store model -/

theorem isPrefixOf_iff_exists : ∀ (l₁ l₂ : List Char), l₁.isPrefixOf l₂ = true ↔ ∃ t, l₂ = l₁ ++ t
  | [], l₂ => by simp [List.isPrefixOf]
  | a :: l₁, [] => by simp [List.isPrefixOf]
  | a :: l₁, b :: l₂ => by
    simp only [List.isPrefixOf, Bool.and_eq_true, beq_iff_eq, isPrefixOf_iff_exists l₁ l₂,
      List.cons_append]
    constructor
    · rintro ⟨rfl, t, rfl⟩
      exact ⟨t, rfl⟩
    · rintro ⟨t, ht⟩
      injection ht with h1 h2
      exact ⟨h1.symm, t, h2⟩

theorem hasPrefStr_iff (s pre : String) : hasPrefStr s pre = true ↔ ∃ t, s.data = pre.data ++ t :=
  isPrefixOf_iff_exists _ _

/-- A path never extends itself by a slash. -/
theorem hasPrefStr_self_slash (p : String) : hasPrefStr p (p ++ "/") = false := by
  by_contra h
  rw [Bool.not_eq_false, hasPrefStr_iff] at h
  obtain ⟨t, ht⟩ := h
  have hlen := congrArg List.length ht
  have hdata : (p ++ "/").data = p.data ++ ['/'] := rfl
  rw [hdata] at hlen
  simp [List.length_append] at hlen

/-- The only errors of `updateDoc` are the missing-document error and the
optimistic-concurrency conflict. -/
theorem updateDoc_error_cases {db : DB} {d : DirDoc} {e : Err}
    (h : updateDoc db d = .error e) : e = .docMissing ∨ e = .conflict := by
  unfold updateDoc at h
  split at h
  · exact Or.inl (by injection h with h; exact h.symm)
  · split at h
    · exact Or.inr (by injection h with h; exact h.symm)
    · exact absurd h (by simp)

theorem find?_map_replace (l : List DirDoc) (id : Nat) (d' : DirDoc) (hd' : d'.objID = id)
    (h : (l.find? (fun e => e.objID = id)).isSome) :
    ((l.map (fun e => if e.objID = id then d' else e)).find? (fun e => e.objID = id)) = some d' := by
  induction l with
  | nil => simp [List.find?] at h
  | cons a l ih =>
    by_cases ha : a.objID = id
    · simp [List.find?, ha, hd']
    · have h' : (l.find? (fun e => e.objID = id)).isSome := by
        simpa [List.find?_cons, ha] using h
      simpa [List.find?_cons, ha] using ih h'

/-- A successful `updateDoc` stores the new revision of the document,
retrievable under its identifier. -/
theorem updateDoc_ok_lookup {db : DB} {d : DirDoc} {db' : DB} {d' : DirDoc}
    (h : updateDoc db d = .ok (db', d')) :
    d' = { d with objRev := d.objRev + 1 } ∧ lookupDoc db' d.objID = some d' := by
  unfold updateDoc at h
  split at h
  · exact absurd h (by simp)
  · rename_i stored hst
    split at h
    · exact absurd h (by simp)
    · injection h with h
      injection h with h1 h2
      subst h2
      refine ⟨rfl, ?_⟩
      have hsome : (db.docs.find? (fun e => e.objID = d.objID)).isSome := by
        unfold lookupDoc at hst; simp [hst]
      have := find?_map_replace db.docs d.objID { d with objRev := d.objRev + 1 } rfl hsome
      unfold lookupDoc
      rw [← h1]
      simpa using this

/-- The fan-out unit never reports the forbidden-move error. -/
theorem updateChildStep_ne_forbidden (oldp newp : String) (db : DB) (c : DirDoc) :
    (updateChildStep oldp newp db c).1 ≠ some .forbiddenDocMove := by
  unfold updateChildStep
  split
  · simp
  · dsimp only
    split
    · rename_i e h
      have := updateDoc_error_cases h
      simp only
      rcases this with h' | h' <;> simp [h']
    · simp

/-- Fanned-out updates never report the forbidden-move error. -/
theorem bulkUpdateChildren_ne_forbidden (oldp newp : String) (cs : List DirDoc)
    (acc : Option Err × DB) (hacc : acc.1 ≠ some .forbiddenDocMove) :
    (cs.foldl (bulkStep oldp newp) acc).1 ≠ some .forbiddenDocMove := by
  induction cs generalizing acc with
  | nil => exact hacc
  | cons c cs ih =>
    rw [List.foldl_cons]
    refine ih _ ?_
    have hc := updateChildStep_ne_forbidden oldp newp acc.2 c
    unfold bulkStep
    cases hstep : updateChildStep oldp newp acc.2 c with
    | mk e db' =>
      rw [hstep] at hc
      cases e with
      | none => simpa using hacc
      | some err => simpa using hc

/-- The fan-out never reports the forbidden-move error. -/
theorem bulkUpdateChildren_ne_forbidden' (oldp newp : String) (cs : List DirDoc) (db : DB) :
    (bulkUpdateChildren oldp newp cs db).1 ≠ some .forbiddenDocMove := by
  unfold bulkUpdateChildren
  exact bulkUpdateChildren_ne_forbidden oldp newp cs (none, db) (by simp)

/-- `bulkUpdateDocsPath` never reports the forbidden-move error. -/
theorem bulkUpdateDocsPath_ne_forbidden (db : DB) (olddoc : DirDoc) (p : String) :
    (bulkUpdateDocsPath db olddoc p).1 ≠ some .forbiddenDocMove := by
  unfold bulkUpdateDocsPath
  dsimp only
  split
  · simp
  · exact bulkUpdateChildren_ne_forbidden' _ _ _ _

/-! ## Claim C6 -/

/-- C6: for every id other than the root sentinel, `GetDirDoc` fails when
no document with that id exists (with `ErrParentDoesNotExist`, the
not-found error of this lookup) and fails with the distinct error
`os.ErrNotExist` when the stored document's type discriminator is not
"directory"; for the root sentinel it returns the synthetic root. -/
theorem c6_get_error_taxonomy (db : DB) (id : Nat) (w : Bool) (hroot : id ≠ RootFolderID) :
    (lookupDoc db id = none → getDirDoc db id w = .error .parentDoesNotExist) ∧
    (∀ d, lookupDoc db id = some d → d.type ≠ DirType → getDirDoc db id w = .error .notExist) ∧
    (∀ w', getDirDoc db RootFolderID w' = .ok ⟨getRootDirDoc, [], []⟩) ∧
    Err.parentDoesNotExist ≠ Err.notExist := by
  refine ⟨?_, ?_, ?_, by simp⟩
  · intro h
    unfold getDirDoc
    rw [if_neg hroot, h]
  · intro d hd ht
    unfold getDirDoc
    rw [if_neg hroot, hd]
    simp [ht]
  · intro w'
    unfold getDirDoc
    simp

/-- C6 witness. -/
theorem c6_witness :
    getDirDoc exDb 7 true = .error .parentDoesNotExist ∧
    getDirDoc ⟨[{ exDocs with type := FileType }], 2⟩ 1 true = .error .notExist := by
  constructor
  · exact (c6_get_error_taxonomy exDb 7 true (by decide)).1 (by decide)
  · exact (c6_get_error_taxonomy ⟨[{ exDocs with type := FileType }], 2⟩ 1 true (by decide)).2.1
      { exDocs with type := FileType } (by decide) (by decide)

/-! ## Claim C8 -/

/-- C8: for the root sentinel identifier, `GetDirDoc` returns the synthetic
root immediately with empty children caches, whatever the `withChildren`
flag says; in particular the result with `withChildren = true` equals the
result with `withChildren = false`, so no children are ever fetched for the
root. -/
theorem c8_root_ignores_withChildren (db : DB) (w : Bool) :
    getDirDoc db RootFolderID w = .ok ⟨getRootDirDoc, [], []⟩ ∧
    getDirDoc db RootFolderID true = getDirDoc db RootFolderID false := by
  exact ⟨rfl, rfl⟩

/-! ## Claim C2 -/

/-- C2 counterexample: `"/a"` and `"/a"` are cleaned absolute paths and the
new path is the old path itself, yet the safe-move primitive fails with
`os.ErrExist`, not with the forbidden-move error the claim requires. -/
theorem c2_counterexample :
    cleanStr "/a" = "/a" ∧ isAbs "/a" = true ∧
    safeRenameDirectory "/a" "/a" ["/", "/a"] = .error .exist ∧
    Err.exist ≠ Err.forbiddenDocMove := by
  decide

/-- C2 amended: for cleaned absolute paths, a destination strictly under
`oldPath ++ "/"` fails with the forbidden-move error; a destination equal
to the old path also fails — with `os.ErrExist` when an entry exists at
that path and `os.ErrNotExist` otherwise — but never with the
forbidden-move error; and whenever `ModifyDirectoryMetadata` fails with the
forbidden-move error, the document store and the physical store are
unchanged. -/
theorem c2_amended :
    (∀ old new fs, cleanStr old = old → cleanStr new = new →
      isAbs old = true → isAbs new = true →
      hasPrefStr new (old ++ "/") = true →
      safeRenameDirectory old new fs = .error .forbiddenDocMove) ∧
    (∀ old fs, cleanStr old = old → isAbs old = true →
      safeRenameDirectory old old fs =
        .error (if fsStat fs old then Err.exist else Err.notExist) ∧
      (if fsStat fs old then Err.exist else Err.notExist) ≠ Err.forbiddenDocMove) ∧
    (∀ db fs olddoc data db' fs',
      modifyDirectoryMetadata db fs olddoc data = (.error .forbiddenDocMove, db', fs') →
      db' = db ∧ fs' = fs) := by
  refine ⟨?_, ?_, ?_⟩
  · intro old new fs hco hcn ha1 ha2 hpref
    unfold safeRenameDirectory
    dsimp only
    rw [hco, hcn]
    rw [if_neg (by simp [ha1, ha2]), if_pos hpref]
  · intro old fs hco ha
    have hp := hasPrefStr_self_slash old
    constructor
    · unfold safeRenameDirectory
      dsimp only
      rw [hco]
      rw [if_neg (by simp [ha]), if_neg (by simp [hp])]
      by_cases hst : fsStat fs old
      · rw [if_pos hst, if_pos hst]
      · rw [if_neg hst, if_neg hst]
        have hmem : ¬ (old ∈ fs) := by
          simpa [fsStat] using hst
        unfold fsRename
        rw [if_neg (by simpa using hmem), if_pos (by simpa using hmem)]
    · split <;> simp
  · intro db fs olddoc data db' fs' h
    unfold modifyDirectoryMetadata at h
    dsimp only at h
    split at h
    · simp only [Prod.mk.injEq] at h
      exact ⟨h.2.1.symm, h.2.2.symm⟩
    · split at h
      · simp only [Prod.mk.injEq] at h
        exact ⟨h.2.1.symm, h.2.2.symm⟩
      · split at h
        · simp only [Prod.mk.injEq] at h
          exact ⟨h.2.1.symm, h.2.2.symm⟩
        · split at h
          · simp only [Prod.mk.injEq] at h
            exact ⟨h.2.1.symm, h.2.2.symm⟩
          · split at h
            · rename_i e db1 heq
              exfalso
              simp only [Prod.mk.injEq, Except.error.injEq] at h
              exact bulkUpdateDocsPath_ne_forbidden db olddoc _
                (by rw [heq]; exact congrArg some h.1)
            · split at h
              · rename_i e heq
                exfalso
                simp only [Prod.mk.injEq, Except.error.injEq] at h
                rcases updateDoc_error_cases heq with h2 | h2 <;>
                  rw [h2] at h <;> simp at h
              · simp only [Prod.mk.injEq] at h
                exact absurd h.1 (by simp)

/-- What a successful `ModifyDirectoryMetadata` returns: the stored new
revision of the node, whose identifier, creation date and type come from
the source's construction, whose name obeys the empty-string sentinel, and
which is retrievable from the updated store. -/
theorem modify_ok_fields {db : DB} {fs : FS} {olddoc : DirDoc} {data : DocMetaAttributes}
    {r : DirDoc} {db' : DB} {fs' : FS}
    (h : modifyDirectoryMetadata db fs olddoc data = (.ok r, db', fs')) :
    r.objID = olddoc.objID ∧ r.objRev = olddoc.objRev + 1 ∧
    r.createdAt = olddoc.createdAt ∧ r.type = DirType ∧
    r.name = (if data.name ≠ "" then data.name else olddoc.name) ∧
    checkFileName (if data.name ≠ "" then data.name else olddoc.name) = none ∧
    lookupDoc db' olddoc.objID = some r := by
  unfold modifyDirectoryMetadata at h
  dsimp only at h
  split at h
  · exact absurd h (by simp [Prod.mk.injEq])
  · rename_i pf pth1 folderID1 heq1
    split at h
    · exact absurd h (by simp [Prod.mk.injEq])
    · split at h
      · exact absurd h (by simp [Prod.mk.injEq])
      · rename_i nd heqnd
        split at h
        · exact absurd h (by simp [Prod.mk.injEq])
        · rename_i fs1 heqfs
          split at h
          · exact absurd h (by simp [Prod.mk.injEq])
          · rename_i db1 heqbulk
            split at h
            · exact absurd h (by simp [Prod.mk.injEq])
            · rename_i db2 stored hequpd
              simp only [Prod.mk.injEq, Except.ok.injEq] at h
              obtain ⟨hr, hdb, hfs⟩ := h
              subst hr hdb
              have hupd := updateDoc_ok_lookup hequpd
              have hnd : nd.type = DirType ∧
                  nd.name = (if data.name ≠ "" then data.name else olddoc.name) ∧
                  checkFileName (if data.name ≠ "" then data.name else olddoc.name) = none := by
                unfold newDirDoc at heqnd
                split at heqnd
                · exact absurd heqnd (by simp)
                · rename_i hcheck
                  injection heqnd with h'
                  exact ⟨by rw [← h'], by rw [← h'], hcheck⟩
              refine ⟨?_, ?_, ?_, ?_, ?_, hnd.2.2, ?_⟩
              · rw [hupd.1]
              · rw [hupd.1]
              · rw [hupd.1]
              · rw [hupd.1]
                simpa using hnd.1
              · rw [hupd.1]
                simpa using hnd.2.1
              · simpa using hupd.2

/-! ## Claim C9 -/

/-- C9: a successful `ModifyDirectoryMetadata` returns (and persists under
the node's identifier) a document with the same id and the same creation
timestamp as the input node, and — for a genuine directory input — the same
type discriminator; only name, parent id, path, tags, `updatedAt` and the
revision can change, which is everything else a document carries. -/
theorem c9_modify_frame (db : DB) (fs : FS) (olddoc : DirDoc) (data : DocMetaAttributes)
    (r : DirDoc) (db' : DB) (fs' : FS)
    (h : modifyDirectoryMetadata db fs olddoc data = (.ok r, db', fs')) :
    r.objID = olddoc.objID ∧ r.createdAt = olddoc.createdAt ∧
    (olddoc.type = DirType → r.type = olddoc.type) ∧
    lookupDoc db' olddoc.objID = some r := by
  obtain ⟨h1, _, h3, h4, _, _, h7⟩ := modify_ok_fields h
  exact ⟨h1, h3, fun ht => by rw [h4, ht], h7⟩

/-- C9 witness: renaming the example directory keeps id, creation date and
type, and stores the returned document. -/
theorem c9_witness :
    exArchive.objID = exDocs.objID ∧ exArchive.createdAt = exDocs.createdAt ∧
    (exDocs.type = DirType → exArchive.type = exDocs.type) ∧
    lookupDoc ⟨[exArchive, exPhotosMoved], 3⟩ exDocs.objID = some exArchive :=
  c9_modify_frame exDb exFs exDocs ⟨"archive", none, none, none⟩ exArchive
    ⟨[exArchive, exPhotosMoved], 3⟩ ["/", "/archive", "/archive/photos"] (by decide)

/-! ## Claim C10 -/

/-- C10: the empty string is the "unchanged" sentinel for the name in the
sparse descriptor (the parent id and the timestamp use an absent optional
value instead): when `data.name` is empty a successful call leaves the name
unchanged, and no successful call can ever produce an empty name, because
the validating constructor rejects it. -/
theorem c10_empty_name_sentinel (db : DB) (fs : FS) (olddoc : DirDoc)
    (data : DocMetaAttributes) (r : DirDoc) (db' : DB) (fs' : FS)
    (h : modifyDirectoryMetadata db fs olddoc data = (.ok r, db', fs')) :
    (data.name = "" → r.name = olddoc.name) ∧ r.name ≠ "" := by
  obtain ⟨_, _, _, _, h5, h6, _⟩ := modify_ok_fields h
  constructor
  · intro hempty
    rw [h5, hempty]
    simp
  · intro hcon
    rw [h5] at hcon
    rw [hcon] at h6
    simp [checkFileName] at h6

/-! ## Claim C7 -/

/-- C7: when a physical entry already exists at the resolved path,
`CreateDirectory` fails with `os.ErrExist` and creates no document; and
when document persistence fails after the physical directory was created,
the deferred compensation removes the just-created physical directory, so
the physical store is restored. -/
theorem c7_create_semantics :
    (∀ db fs fault doc pth pdoc,
      getFilePath db doc.name doc.folderID = .ok (pth, pdoc) →
      fs.contains pth = true →
      createDirectory db fs fault doc = (.error .exist, db, fs)) ∧
    (∀ db fs doc pth pdoc,
      getFilePath db doc.name doc.folderID = .ok (pth, pdoc) →
      fs.contains pth = false →
      createDirectory db fs true doc = (.error .storeFailure, db, fsRemove (pth :: fs) pth) ∧
      fsRemove (pth :: fs) pth = fs) := by
  constructor
  · intro db fs fault doc pth pdoc hres hex
    have hm : pth ∈ fs := by simpa using hex
    simp [createDirectory, hres, fsMkdir, hm]
  · intro db fs doc pth pdoc hres hex
    have hm : ¬ (pth ∈ fs) := by simpa using hex
    constructor
    · simp [createDirectory, hres, fsMkdir, hm, createDoc]
    · have hmem : ¬ (pth ∈ fs) := by simpa using hex
      have hall : ∀ a ∈ fs, a ≠ pth := fun a ha hc => hmem (hc ▸ ha)
      unfold fsRemove
      rw [List.filter_cons]
      rw [if_neg (by simp)]
      exact List.filter_eq_self.mpr (fun a ha => by simpa using hall a ha)

/-- C7 witness: creating "docs" when `/docs` physically exists fails with
the existing-entry error and leaves both stores unchanged; with an injected
persistence failure on a fresh store the compensation restores the
physical state. -/
theorem c7_witness :
    createDirectory exDb exFs false
        { type := DirType, objID := 0, objRev := 0, name := "docs", folderID := RootFolderID,
          createdAt := 5, updatedAt := 5, path := "", tags := [] } =
      (.error .exist, exDb, exFs) ∧
    createDirectory ⟨[], 1⟩ ["/"] true
        { type := DirType, objID := 0, objRev := 0, name := "docs", folderID := RootFolderID,
          createdAt := 5, updatedAt := 5, path := "", tags := [] } =
      (.error .storeFailure, ⟨[], 1⟩, fsRemove ("/docs" :: ["/"]) "/docs") := by
  constructor
  · exact c7_create_semantics.1 exDb exFs false
      { type := DirType, objID := 0, objRev := 0, name := "docs", folderID := RootFolderID,
        createdAt := 5, updatedAt := 5, path := "", tags := [] }
      "/docs" getRootDirDoc (by decide) (by decide)
  · exact (c7_create_semantics.2 ⟨[], 1⟩ ["/"]
      { type := DirType, objID := 0, objRev := 0, name := "docs", folderID := RootFolderID,
        createdAt := 5, updatedAt := 5, path := "", tags := [] }
      "/docs" getRootDirDoc (by decide) (by decide)).1

/-- C10 witness: the tags-only change through the empty-name sentinel keeps
the name "docs", which is nonempty. -/
theorem c10_witness :
    ({ exDocs with objRev := 2, tags := ["t"] } : DirDoc).name = exDocs.name ∧
    ({ exDocs with objRev := 2, tags := ["t"] } : DirDoc).name ≠ "" := by
  have h := c10_empty_name_sentinel exDb exFs exDocs ⟨"", none, some ["t"], none⟩
    { exDocs with objRev := 2, tags := ["t"] }
    ⟨[{ exDocs with objRev := 2, tags := ["t"] }, { exPhotos with objRev := 2 }], 3⟩ exFs
    (by decide)
  exact ⟨h.1 rfl, h.2⟩

/-- C2 witness: a destination under the source fails with the forbidden
move; the equal-path call fails with the existing-entry error; the
in-subtree move through `ModifyDirectoryMetadata` changes nothing. -/
theorem c2_witness :
    safeRenameDirectory "/a" "/a/b" ["/", "/a"] = .error .forbiddenDocMove ∧
    safeRenameDirectory "/a" "/a" ["/", "/a"] =
      .error (if fsStat ["/", "/a"] "/a" then Err.exist else Err.notExist) ∧
    (exDb = exDb ∧ exFs = exFs) := by
  refine ⟨?_, ?_, ?_⟩
  · exact c2_amended.1 "/a" "/a/b" ["/", "/a"] (by decide) (by decide) (by decide) (by decide)
      (by decide)
  · exact (c2_amended.2.1 "/a" ["/", "/a"] (by decide) (by decide)).1
  · exact c2_amended.2.2 exDb exFs exDocs ⟨"", some 1, none, none⟩ exDb exFs (by decide)

/-! ## Claim C1 counterexample -/

/-- C1 counterexample: creating "docs" under the root stores the path
`"/docs"`, while the claim's literal formula `path(parent) + "/" + name`
with the root path `"/"` yields `"//docs"`; the two differ. -/
theorem c1_counterexample :
    createDirectory ⟨[], 1⟩ ["/"] false
        { type := DirType, objID := 0, objRev := 0, name := "docs", folderID := RootFolderID,
          createdAt := 5, updatedAt := 5, path := "", tags := [] } =
      (.ok { type := DirType, objID := 1, objRev := 1, name := "docs", folderID := RootFolderID,
             createdAt := 5, updatedAt := 5, path := "/docs", tags := [] },
        ⟨[{ type := DirType, objID := 1, objRev := 1, name := "docs", folderID := RootFolderID,
            createdAt := 5, updatedAt := 5, path := "/docs", tags := [] }], 2⟩,
        ["/docs", "/"]) ∧
    getRootDirDoc.path = "/" ∧
    ("/docs" : String) ≠ "/" ++ "/" ++ "docs" := by
  decide

/-! ## Claim C4 -/

/-- C4 counterexample: two dispatched fix-up units fail for different
reasons (a lost base prefix and a stale revision), yet the move's overall
error is just the last unit's error — identical to the overall error of a
run in which only that unit fails.  The overall result carries no
aggregation of all unit failures, and no `PartialFailure` value exists in
the code. -/
theorem c4_counterexample :
    (bulkUpdateChildren "/docs" "/archive" [exStale1, exStale2] exDb).1 = some .conflict ∧
    (bulkUpdateChildren "/docs" "/archive" [exStale2] exDb).1 = some .conflict ∧
    (bulkUpdateChildren "/docs" "/archive" [exStale1] exDb).1 = some .wrongBaseDir ∧
    hasPrefStr exStale1.path ("/docs" ++ "/") = false := by
  decide

/-- C4 amended: the move waits for every dispatched unit — a unit that runs
after a failed one still executes and its committed update remains applied
(no rollback) — and when units fail the overall result is the single error
of the last failed unit, not an aggregate. -/
theorem c4_fanout_amended (db db₂ : DB) (oldp newp : String) (c₁ c₂ : DirDoc)
    (h1 : hasPrefStr c₁.path (oldp ++ "/") = false)
    (h2 : updateChildStep oldp newp db c₂ = (none, db₂)) :
    bulkUpdateChildren oldp newp [c₁, c₂] db = (some .wrongBaseDir, db₂) := by
  have hc₁ : bulkStep oldp newp (none, db) c₁ = (some .wrongBaseDir, db) := by
    unfold bulkStep updateChildStep
    rw [if_pos (by simp [h1])]
  have hc₂ : bulkStep oldp newp (some .wrongBaseDir, db) c₂ = (some .wrongBaseDir, db₂) := by
    unfold bulkStep
    rw [h2]
  unfold bulkUpdateChildren
  rw [List.foldl_cons, hc₁, List.foldl_cons, hc₂, List.foldl_nil]

/-- C4 witness: the first unit fails on the lost prefix, the second unit's
committed relocation of "photos" survives in the resulting store. -/
theorem c4_witness :
    bulkUpdateChildren "/docs" "/archive" [exStale1, exPhotos] exDb =
      (some .wrongBaseDir, ⟨[exDocs, exPhotosMoved], 3⟩) :=
  c4_fanout_amended exDb ⟨[exDocs, exPhotosMoved], 3⟩ "/docs" "/archive" exStale1 exPhotos
    (by decide) (by decide)

/-! ## Claim C5 counterexample -/

/-- C5 counterexample: a tags-only metadata change (the resulting path
equals the original path) still queries and re-persists the descendant:
the "photos" document comes back with a bumped revision, so descendant
documents are updated even though no path changed. -/
theorem c5_counterexample :
    (modifyDirectoryMetadata exDb exFs exDocs ⟨"", none, some ["t"], none⟩).1 =
      .ok { exDocs with objRev := 2, tags := ["t"] } ∧
    lookupDoc (modifyDirectoryMetadata exDb exFs exDocs ⟨"", none, some ["t"], none⟩).2.1
        exPhotos.objID = some { exPhotos with objRev := 2 } ∧
    exPhotos.objRev ≠ 2 := by
  decide

/-! ## Path algebra: cleaned absolute paths as segment lists -/

/-- Propositional form of `goodSegB`. -/
def GoodSeg (s : List Char) : Prop :=
  s ≠ [] ∧ s ≠ ['.'] ∧ s ≠ ['.', '.'] ∧ '/' ∉ s

theorem goodSegB_iff {s : List Char} : goodSegB s = true ↔ GoodSeg s := by
  simp [goodSegB, GoodSeg, and_assoc]

theorem splitOnSlash_ne_nil : ∀ l : List Char, splitOnSlash l ≠ []
  | [] => by simp [splitOnSlash]
  | c :: rest => by
    unfold splitOnSlash
    split
    · simp
    · split
      · simp
      · simp

theorem splitOnSlash_slash (l : List Char) : splitOnSlash ('/' :: l) = [] :: splitOnSlash l := by
  simp [splitOnSlash]

theorem splitOnSlash_cons (c : Char) (l : List Char) :
    splitOnSlash (c :: l) =
      if c = '/' then [] :: splitOnSlash l
      else match splitOnSlash l with
        | [] => [[c]]
        | h :: t => (c :: h) :: t := rfl

theorem exists_cons_splitOnSlash (l : List Char) : ∃ h t, splitOnSlash l = h :: t := by
  cases hl : splitOnSlash l with
  | nil => exact absurd hl (splitOnSlash_ne_nil l)
  | cons h t => exact ⟨h, t, rfl⟩

theorem splitOnSlash_sepFree_append (s l : List Char) (hs : '/' ∉ s) :
    splitOnSlash (s ++ l) = (splitOnSlash l).modifyHead (fun x => s ++ x) := by
  induction s with
  | nil =>
    obtain ⟨h, t, hht⟩ := exists_cons_splitOnSlash l
    simp [hht]
  | cons c s ih =>
    have hc : c ≠ '/' := fun hcc => hs (by simp [hcc])
    have hs' : '/' ∉ s := fun hmem => hs (by simp [hmem])
    obtain ⟨h, t, hht⟩ := exists_cons_splitOnSlash l
    have ih' := ih hs'
    rw [hht] at ih'
    obtain ⟨h₂, t₂, hht₂⟩ := exists_cons_splitOnSlash (s ++ l)
    show splitOnSlash (c :: (s ++ l)) = _
    rw [splitOnSlash_cons, if_neg hc, hht₂]
    rw [hht₂] at ih'
    simp only [List.modifyHead] at ih'
    injection ih' with e1 e2
    subst e1 e2
    simp [hht]

theorem splitOnSlash_sepFree (s : List Char) (hs : '/' ∉ s) : splitOnSlash s = [s] := by
  have := splitOnSlash_sepFree_append s [] hs
  simpa [splitOnSlash] using this

theorem catSegs_append (a b : List (List Char)) : catSegs (a ++ b) = catSegs a ++ catSegs b := by
  induction a with
  | nil => simp [catSegs]
  | cons s a ih => simp [catSegs, ih]

theorem catSegs_cons_join : ∀ ss : List (List Char), ss ≠ [] → catSegs ss = '/' :: joinSegs ss
  | [], h => absurd rfl h
  | [s], _ => by simp [catSegs, joinSegs]
  | s :: s' :: ss, _ => by
    have ih := catSegs_cons_join (s' :: ss) (by simp)
    calc catSegs (s :: s' :: ss) = '/' :: (s ++ catSegs (s' :: ss)) := rfl
      _ = '/' :: (s ++ '/' :: joinSegs (s' :: ss)) := by rw [ih]
      _ = '/' :: joinSegs (s :: s' :: ss) := rfl

theorem joinSegs_ne_nil : ∀ ss : List (List Char), ss ≠ [] → (∀ s ∈ ss, s ≠ []) → joinSegs ss ≠ []
  | [], h, _ => absurd rfl h
  | [s], _, hg => by simpa [joinSegs] using hg s (by simp)
  | s :: s' :: ss, _, hg => by
    have hs : s ≠ [] := hg s (by simp)
    simp [joinSegs]

theorem catSegs_head : ∀ ss : List (List Char), ss ≠ [] → ∃ t, catSegs ss = '/' :: t
  | [], h => absurd rfl h
  | s :: ss, _ => ⟨s ++ catSegs ss, rfl⟩

theorem splitOnSlash_catSegs : ∀ ss : List (List Char), (∀ s ∈ ss, '/' ∉ s) → ss ≠ [] →
    splitOnSlash (catSegs ss) = [] :: ss
  | [], _, h => absurd rfl h
  | [s], hsep, _ => by
    have : catSegs [s] = '/' :: s := by simp [catSegs]
    rw [this, splitOnSlash_slash, splitOnSlash_sepFree s (hsep s (by simp))]
  | s :: s' :: ss, hsep, _ => by
    have ih := splitOnSlash_catSegs (s' :: ss) (fun x hx => hsep x (by simp [hx])) (by simp)
    have hstep : catSegs (s :: s' :: ss) = '/' :: (s ++ catSegs (s' :: ss)) := by
      simp [catSegs]
    rw [hstep, splitOnSlash_slash,
      splitOnSlash_sepFree_append s _ (hsep s (by simp)), ih]
    simp

theorem splitOnSlash_catSegs_slash : ∀ ss : List (List Char), (∀ s ∈ ss, '/' ∉ s) → ss ≠ [] →
    ∀ r, splitOnSlash (catSegs ss ++ '/' :: r) = [] :: ss ++ splitOnSlash r
  | [], _, h => absurd rfl h
  | [s], hsep, _ => by
    intro r
    have : catSegs [s] ++ '/' :: r = '/' :: (s ++ '/' :: r) := by simp [catSegs]
    rw [this, splitOnSlash_slash,
      splitOnSlash_sepFree_append s _ (hsep s (by simp)), splitOnSlash_slash]
    simp
  | s :: s' :: ss, hsep, _ => by
    intro r
    have ih := splitOnSlash_catSegs_slash (s' :: ss) (fun x hx => hsep x (by simp [hx]))
      (by simp) r
    have hstep : catSegs (s :: s' :: ss) ++ '/' :: r =
        '/' :: (s ++ (catSegs (s' :: ss) ++ '/' :: r)) := by
      simp [catSegs]
    rw [hstep, splitOnSlash_slash,
      splitOnSlash_sepFree_append s _ (hsep s (by simp)), ih]
    simp

theorem joinSegs_splitOnSlash : ∀ l : List Char, joinSegs (splitOnSlash l) = l
  | [] => by simp [splitOnSlash, joinSegs]
  | c :: rest => by
    by_cases hc : c = '/'
    · subst hc
      rw [splitOnSlash_slash]
      obtain ⟨h, t, hht⟩ : ∃ h t, splitOnSlash rest = h :: t := by
        cases hl : splitOnSlash rest with
        | nil => exact absurd hl (splitOnSlash_ne_nil rest)
        | cons h t => exact ⟨h, t, rfl⟩
      have ih := joinSegs_splitOnSlash rest
      rw [hht] at ih ⊢
      cases t with
      | nil => simpa [joinSegs] using congrArg (fun x => '/' :: x) ih
      | cons t₁ ts => simpa [joinSegs] using congrArg (fun x => '/' :: x) ih
    · obtain ⟨h, t, hht⟩ : ∃ h t, splitOnSlash rest = h :: t := by
        cases hl : splitOnSlash rest with
        | nil => exact absurd hl (splitOnSlash_ne_nil rest)
        | cons h t => exact ⟨h, t, rfl⟩
      have ih := joinSegs_splitOnSlash rest
      rw [hht] at ih
      have hstep : splitOnSlash (c :: rest) = (c :: h) :: t := by
        unfold splitOnSlash
        rw [if_neg hc, hht]
      rw [hstep]
      cases t with
      | nil => simpa [joinSegs] using congrArg (fun x => c :: x) ih
      | cons t₁ ts => simpa [joinSegs] using congrArg (fun x => c :: x) ih

theorem cleanCore_filter (rooted : Bool) (segs : List (List Char))
    (h : ∀ s ∈ segs, s = [] ∨ (s ≠ ['.'] ∧ s ≠ ['.', '.'])) :
    cleanCore rooted segs = segs.filter (fun s => s ≠ []) := by
  have aux : ∀ (l : List (List Char)) (acc : List (List Char)),
      (∀ s ∈ l, s = [] ∨ (s ≠ ['.'] ∧ s ≠ ['.', '.'])) →
      l.foldl
        (fun st seg =>
          if seg = [] ∨ seg = ['.'] then st
          else if seg = ['.', '.'] then
            match st with
            | [] => if rooted then [] else [['.', '.']]
            | top :: rest => if top = ['.', '.'] then seg :: st else rest
          else seg :: st)
        acc = (l.filter (fun s => s ≠ [])).reverse ++ acc := by
    intro l
    induction l with
    | nil => intro acc _; simp
    | cons s l ih =>
      intro acc hl
      rcases hl s (by simp) with hs | ⟨hs1, hs2⟩
      · subst hs
        rw [List.foldl_cons, if_pos (Or.inl rfl)]
        rw [ih acc (fun x hx => hl x (by simp [hx]))]
        simp
      · by_cases hse : s = []
        · subst hse
          rw [List.foldl_cons, if_pos (Or.inl rfl)]
          rw [ih acc (fun x hx => hl x (by simp [hx]))]
          simp
        · rw [List.foldl_cons, if_neg (show ¬ (s = [] ∨ s = ['.']) by simp [hse, hs1]),
            if_neg hs2]
          rw [ih (s :: acc) (fun x hx => hl x (by simp [hx]))]
          simp [hse]
  unfold cleanCore
  rw [aux segs [] h]
  simp

/-- Go `path.Clean` is the identity on a nonempty good rooted segment
path. -/
theorem cleanL_catSegs (ss : List (List Char)) (hg : ∀ s ∈ ss, GoodSeg s) (hne : ss ≠ []) :
    cleanL (catSegs ss) = catSegs ss := by
  obtain ⟨t, hht⟩ := catSegs_head ss hne
  have hsep : ∀ s ∈ ss, '/' ∉ s := fun s hs => (hg s hs).2.2.2
  have hsplit := splitOnSlash_catSegs ss hsep hne
  have hcore : cleanCore true (splitOnSlash (catSegs ss)) = ss := by
    rw [hsplit, cleanCore_filter true ([] :: ss)
      (by
        intro s hs
        rcases List.mem_cons.mp hs with h | h
        · exact Or.inl h
        · exact Or.inr ⟨(hg s h).2.1, (hg s h).2.2.1⟩)]
    rw [List.filter_cons]
    rw [if_neg (by simp)]
    exact List.filter_eq_self.mpr (fun s hs => by simpa using (hg s hs).1)
  have hne' : catSegs ss ≠ [] := by rw [hht]; simp
  have hrooted : (catSegs ss).head? = some '/' := by rw [hht]; rfl
  unfold cleanL
  dsimp only
  simp [hne', hrooted, hcore, hne]

theorem cleanL_root : cleanL ['/'] = ['/'] := by decide

/-- Spec-level gadget: the path whose segments are `ss` (the root path for
no segments). -/
def pathOfSegs (ss : List (List Char)) : String :=
  if ss = [] then "/" else ⟨catSegs ss⟩

/-- The characterization of `isCleanAbsStr`: the root, or a nonempty good
segment list. -/
theorem isCleanAbs_iff (p : String) :
    isCleanAbsStr p = true ↔
      (p = "/" ∨ ∃ ss, ss ≠ [] ∧ (∀ s ∈ ss, GoodSeg s) ∧ p.data = catSegs ss) := by
  constructor
  · intro h
    unfold isCleanAbsStr at h
    rcases Bool.or_eq_true _ _ |>.mp h with h | h
    · exact Or.inl (by simpa using h)
    · right
      obtain ⟨hd, tl, hht⟩ := exists_cons_splitOnSlash p.data
      rw [hht] at h
      cases hd with
      | cons c cs => simp at h
      | nil =>
        simp only [Bool.and_eq_true, decide_eq_true_eq, List.all_eq_true] at h
        refine ⟨tl, h.1, fun s hs => goodSegB_iff.mp (h.2 s hs), ?_⟩
        have hrec := joinSegs_splitOnSlash p.data
        rw [hht] at hrec
        have : joinSegs ([] :: tl) = '/' :: joinSegs tl := by
          cases tl with
          | nil => exact absurd rfl h.1
          | cons a b => simp [joinSegs]
        rw [this] at hrec
        rw [← hrec, catSegs_cons_join tl h.1]
  · intro h
    rcases h with h | ⟨ss, hne, hg, hdata⟩
    · subst h; decide
    · unfold isCleanAbsStr
      rw [hdata, splitOnSlash_catSegs ss (fun s hs => (hg s hs).2.2.2) hne]
      simp only [Bool.or_eq_true, Bool.and_eq_true, decide_eq_true_eq, List.all_eq_true]
      exact Or.inr ⟨hne, fun s hs => goodSegB_iff.mpr (hg s hs)⟩

/-- Go `path.Clean` is the identity on cleaned absolute paths. -/
theorem cleanStr_cleanAbs {p : String} (h : isCleanAbsStr p = true) : cleanStr p = p := by
  rcases (isCleanAbs_iff p).mp h with h | ⟨ss, hne, hg, hdata⟩
  · subst h
    decide
  · show String.mk (cleanL p.data) = p
    rw [hdata, cleanL_catSegs ss hg hne, ← hdata]

theorem strExt {a b : String} (h : a.data = b.data) : a = b := by
  cases a
  cases b
  exact congrArg String.mk h

theorem strData_append (a b : String) : (a ++ b).data = a.data ++ b.data := rfl

theorem strMk_ne_empty {l : List Char} (h : l ≠ []) : (⟨l⟩ : String) ≠ "" := by
  intro hc
  exact h (by simpa using congrArg String.data hc)

theorem splitOnSlash_joinSegs (ys : List (List Char)) (hsep : ∀ s ∈ ys, '/' ∉ s)
    (hne : ys ≠ []) : splitOnSlash (joinSegs ys) = ys := by
  have h1 := splitOnSlash_catSegs ys hsep hne
  rw [catSegs_cons_join ys hne, splitOnSlash_slash] at h1
  injection h1

/-- Go `path.Join` glues a rooted segment path and a relative segment path
into the rooted concatenation. -/
theorem pathJoin_segs (xs ys : List (List Char)) (hg : ∀ s ∈ xs ++ ys, GoodSeg s)
    (hys : ys ≠ []) : pathJoin (pathOfSegs xs) ⟨joinSegs ys⟩ = ⟨catSegs (xs ++ ys)⟩ := by
  have hgy : ∀ s ∈ ys, GoodSeg s := fun s hs => hg s (by simp [hs])
  have hgx : ∀ s ∈ xs, GoodSeg s := fun s hs => hg s (by simp [hs])
  have hj : joinSegs ys ≠ [] := joinSegs_ne_nil ys hys (fun s hs => (hgy s hs).1)
  have hjs : (⟨joinSegs ys⟩ : String) ≠ "" := strMk_ne_empty hj
  have hsplity : splitOnSlash (joinSegs ys) = ys :=
    splitOnSlash_joinSegs ys (fun s hs => (hgy s hs).2.2.2) hys
  cases hxs : xs with
  | nil =>
    have h0 : pathOfSegs [] = "/" := rfl
    unfold pathJoin
    rw [h0]
    rw [if_neg (by simp [hjs]), if_neg (by decide), if_neg hjs]
    show String.mk (cleanL (("/" ++ "/" ++ (⟨joinSegs ys⟩ : String)).data)) = _
    have hdata : ("/" ++ "/" ++ (⟨joinSegs ys⟩ : String)).data = '/' :: '/' :: joinSegs ys := rfl
    rw [hdata]
    have hsplit : splitOnSlash ('/' :: '/' :: joinSegs ys) = [] :: [] :: ys := by
      rw [splitOnSlash_slash, splitOnSlash_slash, hsplity]
    have hcore : cleanCore true (splitOnSlash ('/' :: '/' :: joinSegs ys)) = ys := by
      rw [hsplit, cleanCore_filter true ([] :: [] :: ys)
        (by
          intro s hs
          rcases List.mem_cons.mp hs with h | hs
          · exact Or.inl h
          rcases List.mem_cons.mp hs with h | hs
          · exact Or.inl h
          · exact Or.inr ⟨(hgy s hs).2.1, (hgy s hs).2.2.1⟩)]
      rw [List.filter_cons, if_neg (by simp), List.filter_cons, if_neg (by simp)]
      exact List.filter_eq_self.mpr (fun s hs => by simpa using (hgy s hs).1)
    unfold cleanL
    dsimp only
    rw [if_neg (by simp)]
    have hrooted : ('/' :: '/' :: joinSegs ys).head? = some '/' := rfl
    simp [hrooted, hcore, hys]
  | cons x xs' =>
    rw [← hxs]
    have hxne : xs ≠ [] := by rw [hxs]; simp
    have h0 : pathOfSegs xs = ⟨catSegs xs⟩ := by unfold pathOfSegs; rw [if_neg hxne]
    obtain ⟨t, hht⟩ := catSegs_head xs hxne
    have hcne : catSegs xs ≠ [] := by rw [hht]; simp
    unfold pathJoin
    rw [h0]
    rw [if_neg (by simp [strMk_ne_empty hcne]), if_neg (strMk_ne_empty hcne), if_neg hjs]
    show String.mk (cleanL (((⟨catSegs xs⟩ : String) ++ "/" ++ (⟨joinSegs ys⟩ : String)).data)) = _
    have hdata : ((⟨catSegs xs⟩ : String) ++ "/" ++ (⟨joinSegs ys⟩ : String)).data =
        (catSegs xs ++ ['/']) ++ joinSegs ys := rfl
    rw [hdata]
    have hglue : (catSegs xs ++ ['/']) ++ joinSegs ys = catSegs (xs ++ ys) := by
      rw [catSegs_append, catSegs_cons_join ys hys]
      simp
    rw [hglue, cleanL_catSegs (xs ++ ys) hg (by simp [hxne])]

theorem drop_len_append : ∀ (l₁ l₂ : List Char), (l₁ ++ l₂).drop l₁.length = l₂ := by
  intro l₁
  induction l₁ with
  | nil => simp
  | cons c l ih => simp [ih]

/-- Dropping the old base (and its slash) from a nested path yields the
relative remainder. -/
theorem strDrop_concat (xs ys : List (List Char)) (hyne : ys ≠ []) :
    strDrop ⟨catSegs (xs ++ ys)⟩ (strLen ⟨catSegs xs⟩ + 1) = ⟨joinSegs ys⟩ := by
  show String.mk ((catSegs (xs ++ ys)).drop ((catSegs xs).length + 1)) = _
  rw [catSegs_append, catSegs_cons_join ys hyne]
  have hassoc : catSegs xs ++ '/' :: joinSegs ys = (catSegs xs ++ ['/']) ++ joinSegs ys := by
    simp
  have hlen : (catSegs xs).length + 1 = (catSegs xs ++ ['/']).length := by simp
  rw [hassoc, hlen, drop_len_append]

theorem seg_eq_of_pref : ∀ (a b t₁ t₂ : List Char), '/' ∉ a → '/' ∉ b →
    (∃ r, b ++ t₂ = (a ++ '/' :: t₁) ++ r) → (t₂ = [] ∨ ∃ u, t₂ = '/' :: u) →
    a = b ∧ ∃ r, t₂ = ('/' :: t₁) ++ r
  | [], b, t₁, t₂, _, hb, ⟨r, hr⟩, _ => by
    cases b with
    | nil => exact ⟨rfl, r, by simpa using hr⟩
    | cons c b' =>
      exfalso
      have hr' : c :: (b' ++ t₂) = '/' :: (t₁ ++ r) := by simpa using hr
      injection hr' with h1 _
      exact hb (by simp [h1])
  | c :: a', b, t₁, t₂, ha, hb, ⟨r, hr⟩, ht₂ => by
    cases b with
    | nil =>
      exfalso
      have hr' : t₂ = c :: ((a' ++ '/' :: t₁) ++ r) := by simpa using hr
      rcases ht₂ with h | ⟨u, hu⟩
      · rw [h] at hr'
        exact absurd hr'.symm (by simp)
      · rw [hu] at hr'
        injection hr' with h1 _
        exact ha (by simp [← h1])
    | cons d b' =>
      have hr' : d :: (b' ++ t₂) = c :: ((a' ++ '/' :: t₁) ++ r) := by simpa using hr
      injection hr' with h1 h2
      have ih := seg_eq_of_pref a' b' t₁ t₂
        (fun hm => ha (by simp [hm])) (fun hm => hb (by simp [hm])) ⟨r, h2⟩ ht₂
      exact ⟨by rw [ih.1, h1], ih.2⟩

/-- A good segment path that string-extends another good segment path by a
slash extends it by whole segments. -/
theorem catSegs_pref_decomp : ∀ (xs zs : List (List Char)), (∀ s ∈ xs, GoodSeg s) →
    (∀ s ∈ zs, GoodSeg s) → xs ≠ [] →
    (∃ r, catSegs zs = (catSegs xs ++ ['/']) ++ r) →
    ∃ ys, ys ≠ [] ∧ zs = xs ++ ys
  | [], _, _, _, hne, _ => absurd rfl hne
  | x :: xs', zs, hgx, hgz, _, ⟨r, hr⟩ => by
    cases zs with
    | nil =>
      exfalso
      have : catSegs ([] : List (List Char)) = [] := rfl
      rw [this] at hr
      have : ('/' :: (x ++ catSegs xs') ++ ['/']) ++ r ≠ [] := by simp [catSegs]
      exact this (by simpa [catSegs] using hr.symm)
    | cons z zs' =>
      have hr' : z ++ catSegs zs' = x ++ ((catSegs xs' ++ ['/']) ++ r) := by
        have h1 : catSegs (z :: zs') = '/' :: (z ++ catSegs zs') := rfl
        have h2 : (catSegs (x :: xs') ++ ['/']) ++ r =
            '/' :: (x ++ ((catSegs xs' ++ ['/']) ++ r)) := by
          show (('/' :: (x ++ catSegs xs')) ++ ['/']) ++ r = _
          simp
        rw [h1, h2] at hr
        injection hr
      have hxsep : '/' ∉ x := (hgx x (by simp)).2.2.2
      have hzsep : '/' ∉ z := (hgz z (by simp)).2.2.2
      have ht₂ : catSegs zs' = [] ∨ ∃ u, catSegs zs' = '/' :: u := by
        cases zs' with
        | nil => exact Or.inl rfl
        | cons a b =>
          obtain ⟨t, ht⟩ := catSegs_head (a :: b) (by simp)
          exact Or.inr ⟨t, ht⟩
      by_cases hxs'nil : xs' = []
      · have hshape : ∃ r₀, z ++ catSegs zs' = (x ++ '/' :: r) ++ r₀ := by
          refine ⟨[], ?_⟩
          rw [hr', hxs'nil]
          simp [catSegs]
        have hmain := seg_eq_of_pref x z r (catSegs zs') hxsep hzsep hshape ht₂
        obtain ⟨hxz, r₂, hr₂⟩ := hmain
        have hzs'ne : zs' ≠ [] := by
          intro hc
          rw [hc] at hr₂
          exact absurd hr₂.symm (by simp [catSegs])
        refine ⟨zs', hzs'ne, ?_⟩
        rw [hxs'nil, hxz]
        rfl
      · have hxs'ne : xs' ≠ [] := hxs'nil
        obtain ⟨w, hw⟩ := catSegs_head xs' hxs'ne
        have hshape : ∃ r₀, z ++ catSegs zs' = (x ++ '/' :: ((w ++ ['/']) ++ r)) ++ r₀ := by
          refine ⟨[], ?_⟩
          rw [hr', hw]
          simp
        have hmain := seg_eq_of_pref x z ((w ++ ['/']) ++ r) (catSegs zs') hxsep hzsep
          hshape ht₂
        obtain ⟨hxz, r₂, hr₂⟩ := hmain
        have hpref' : ∃ r₃, catSegs zs' = (catSegs xs' ++ ['/']) ++ r₃ := by
          refine ⟨r ++ r₂, ?_⟩
          rw [hr₂, hw]
          simp
        have ih := catSegs_pref_decomp xs' zs'
          (fun s hs => hgx s (by simp [hs])) (fun s hs => hgz s (by simp [hs]))
          hxs'ne hpref'
        obtain ⟨ys, hysne, hzs'⟩ := ih
        refine ⟨ys, hysne, ?_⟩
        rw [hzs', hxz]
        rfl

theorem dropWhile_sepFree_append (a r : List Char) (ha : ∀ c ∈ a, c ≠ '/') :
    (a ++ '/' :: r).dropWhile (fun c => c ≠ '/') = '/' :: r := by
  induction a with
  | nil => simp [List.dropWhile]
  | cons c a ih =>
    have hc : c ≠ '/' := ha c (by simp)
    have ih' := ih (fun x hx => ha x (by simp [hx]))
    simpa [List.dropWhile, hc] using ih'

theorem dirPartL_concat (xs : List (List Char)) (n : List Char) (hn : '/' ∉ n) :
    dirPartL (catSegs (xs ++ [n])) = catSegs xs ++ ['/'] := by
  unfold dirPartL
  have h1 : catSegs (xs ++ [n]) = (catSegs xs ++ ['/']) ++ n := by
    rw [catSegs_append]
    show catSegs xs ++ '/' :: (n ++ []) = _
    simp
  rw [h1]
  rw [List.reverse_append]
  have h2 : ((catSegs xs ++ ['/']).reverse) = '/' :: (catSegs xs).reverse := by
    simp
  rw [h2]
  have h3 : n.reverse ++ '/' :: (catSegs xs).reverse =
      n.reverse ++ '/' :: (catSegs xs).reverse := rfl
  rw [dropWhile_sepFree_append n.reverse ((catSegs xs).reverse)
    (fun c hc hceq => hn (by rw [← hceq]; exact List.mem_reverse.mp hc))]
  simp

/-- Go `path.Dir` of a good concatenation is the parent path. -/
theorem pathDir_concat (xs : List (List Char)) (n : List Char)
    (hg : ∀ s ∈ xs, GoodSeg s) (hn : GoodSeg n) :
    pathDir ⟨catSegs (xs ++ [n])⟩ = pathOfSegs xs := by
  unfold pathDir
  show String.mk (cleanL (dirPartL (catSegs (xs ++ [n])))) = _
  rw [dirPartL_concat xs n hn.2.2.2]
  by_cases hxs : xs = []
  · subst hxs
    show String.mk (cleanL (catSegs [] ++ ['/'])) = pathOfSegs []
    have : catSegs ([] : List (List Char)) ++ ['/'] = ['/'] := rfl
    rw [this, cleanL_root]
    rfl
  · obtain ⟨t, hht⟩ := catSegs_head xs hxs
    have hsplit : splitOnSlash (catSegs xs ++ ['/']) = [] :: xs ++ [[]] := by
      have := splitOnSlash_catSegs_slash xs (fun s hs => (hg s hs).2.2.2) hxs []
      simpa [splitOnSlash] using this
    have hcore : cleanCore true (splitOnSlash (catSegs xs ++ ['/'])) = xs := by
      rw [hsplit, cleanCore_filter true ([] :: xs ++ [[]])
        (by
          intro s hs
          rcases List.mem_cons.mp hs with h | hs
          · exact Or.inl h
          rcases List.mem_append.mp hs with h | h
          · exact Or.inr ⟨(hg s h).2.1, (hg s h).2.2.1⟩
          · exact Or.inl (by simpa using h))]
      rw [List.filter_append, List.filter_cons, if_neg (by simp)]
      have h4 : List.filter (fun s => s ≠ []) [([] : List Char)] = [] := by simp
      rw [h4, List.append_nil]
      exact List.filter_eq_self.mpr (fun s hs => by simpa using (hg s hs).1)
    have hne' : catSegs xs ++ ['/'] ≠ [] := by simp
    have hrooted : (catSegs xs ++ ['/']).head? = some '/' := by rw [hht]; rfl
    unfold cleanL
    dsimp only
    rw [if_neg hne']
    simp only [hrooted]
    simp [hcore, hxs, pathOfSegs]

/-- The cleaned concatenation of a segment path and one further good
segment. -/
theorem concatPath_segs (xs : List (List Char)) (n : List Char)
    (hgx : ∀ s ∈ xs, GoodSeg s) :
    concatPath (pathOfSegs xs) ⟨n⟩ = ⟨catSegs (xs ++ [n])⟩ := by
  by_cases hxs : xs = []
  · subst hxs
    have h0 : concatPath (pathOfSegs []) ⟨n⟩ = "/" ++ ⟨n⟩ := by
      simp [concatPath, pathOfSegs]
    rw [h0]
    apply strExt
    show ('/' :: n : List Char) = catSegs [n]
    simp [catSegs]
  · have h0 : pathOfSegs xs = ⟨catSegs xs⟩ := by unfold pathOfSegs; rw [if_neg hxs]
    obtain ⟨x, xs', hxx⟩ : ∃ x xs', xs = x :: xs' := by
      cases xs with
      | nil => exact absurd rfl hxs
      | cons a b => exact ⟨a, b, rfl⟩
    have hne : (⟨catSegs xs⟩ : String) ≠ "/" := by
      intro hc
      have hd := congrArg String.data hc
      rw [hxx] at hd
      have : x ++ catSegs xs' = [] := by
        have hd' : '/' :: (x ++ catSegs xs') = ['/'] := by simpa [catSegs] using hd
        injection hd'
      have hx1 : x = [] := by
        cases x with
        | nil => rfl
        | cons c cs => simp at this
      exact (hgx x (by simp [hxx])).1 hx1
    unfold concatPath
    rw [h0, if_neg hne]
    apply strExt
    show (catSegs xs ++ ['/']) ++ n = catSegs (xs ++ [n])
    rw [catSegs_append]
    show (catSegs xs ++ ['/']) ++ n = catSegs xs ++ '/' :: (n ++ [])
    simp

/-- Splits a well-formed non-root path into its segments. -/
theorem parse_cleanAbs {p : String} (h : isCleanAbsStr p = true) (hroot : p ≠ "/") :
    ∃ ss, ss ≠ [] ∧ (∀ s ∈ ss, GoodSeg s) ∧ p.data = catSegs ss := by
  rcases (isCleanAbs_iff p).mp h with h | h
  · exact absurd h hroot
  · exact h

/-- String-extension by a slash corresponds to segment-list extension. -/
theorem hasPref_catSegs_iff (xs zs : List (List Char)) (hgx : ∀ s ∈ xs, GoodSeg s)
    (hgz : ∀ s ∈ zs, GoodSeg s) (hxne : xs ≠ []) :
    hasPrefStr ⟨catSegs zs⟩ ((⟨catSegs xs⟩ : String) ++ "/") = true ↔
      ∃ ys, ys ≠ [] ∧ zs = xs ++ ys := by
  constructor
  · intro h
    rw [hasPrefStr_iff] at h
    obtain ⟨t, ht⟩ := h
    have hdata : ((⟨catSegs xs⟩ : String) ++ "/").data = catSegs xs ++ ['/'] := rfl
    rw [hdata] at ht
    exact catSegs_pref_decomp xs zs hgx hgz hxne ⟨t, ht⟩
  · rintro ⟨ys, hysne, rfl⟩
    rw [hasPrefStr_iff]
    refine ⟨joinSegs ys, ?_⟩
    show catSegs (xs ++ ys) = (catSegs xs ++ ['/']) ++ joinSegs ys
    rw [catSegs_append, catSegs_cons_join ys hysne]
    simp

theorem pathOfSegs_ne {ss : List (List Char)} (hne : ss ≠ []) :
    pathOfSegs ss = ⟨catSegs ss⟩ := by
  unfold pathOfSegs
  rw [if_neg hne]

/-! ## Claim C3 -/

/-- C3: during a move from `oldPath` to `newPath` (both cleaned absolute
non-root paths), a dispatched unit for a queried document whose path still
extends `oldPath ++ "/"` rewrites that path to the literal concatenation
`newPath ++ "/" ++ suffix` — where `suffix` is what follows the
`oldPath ++ "/"` prefix — and persists it through `updateDoc` under the
document's own revision; a queried document whose path no longer extends
`oldPath ++ "/"` is rejected with the wrong-base error and the store is
left unchanged. -/
theorem c3_descendant_fixup (old new : String) (db : DB) (child : DirDoc)
    (hold : isCleanAbsStr old = true) (holdr : old ≠ "/")
    (hnew : isCleanAbsStr new = true) (hnewr : new ≠ "/")
    (hch : isCleanAbsStr child.path = true) :
    (hasPrefStr child.path (old ++ "/") = true →
      child.path = old ++ "/" ++ strDrop child.path (strLen old + 1) ∧
      pathJoin new (strDrop child.path (strLen old + 1)) =
        new ++ "/" ++ strDrop child.path (strLen old + 1) ∧
      updateChildStep old new db child =
        (match updateDoc db { child with
            path := new ++ "/" ++ strDrop child.path (strLen old + 1) } with
         | .error e => (some e, db)
         | .ok (db', _) => (none, db'))) ∧
    (hasPrefStr child.path (old ++ "/") = false →
      updateChildStep old new db child = (some .wrongBaseDir, db)) := by
  obtain ⟨xs, hxne, hgx, hxd⟩ := parse_cleanAbs hold holdr
  obtain ⟨ws, hwne, hgw, hwd⟩ := parse_cleanAbs hnew hnewr
  have holds : old = ⟨catSegs xs⟩ := strExt hxd
  have hnews : new = ⟨catSegs ws⟩ := strExt hwd
  constructor
  · intro hpref
    rcases (isCleanAbs_iff child.path).mp hch with hcr | ⟨zs, hzne, hgz, hzd⟩
    · exfalso
      rw [hcr, holds] at hpref
      rw [hasPrefStr_iff] at hpref
      obtain ⟨t, ht⟩ := hpref
      have hlen := congrArg List.length ht
      have h1 : (("/" : String)).data.length = 1 := rfl
      have h2 : ((⟨catSegs xs⟩ : String) ++ "/").data = catSegs xs ++ ['/'] := rfl
      rw [h2] at hlen
      obtain ⟨t₀, hht₀⟩ := catSegs_head xs hxne
      simp [h1, hht₀] at hlen
    · have hchs : child.path = ⟨catSegs zs⟩ := strExt hzd
      have hdec : ∃ ys, ys ≠ [] ∧ zs = xs ++ ys := by
        rw [hchs, holds] at hpref
        exact (hasPref_catSegs_iff xs zs hgx hgz hxne).mp hpref
      obtain ⟨ys, hyne, hzeq⟩ := hdec
      have hgy : ∀ s ∈ ys, GoodSeg s := fun s hs => hgz s (by rw [hzeq]; simp [hs])
      have hdrop : strDrop child.path (strLen old + 1) = ⟨joinSegs ys⟩ := by
        rw [hchs, holds, hzeq]
        exact strDrop_concat xs ys hyne
      have hsuffix : child.path = old ++ "/" ++ strDrop child.path (strLen old + 1) := by
        rw [hdrop, hchs, holds, hzeq]
        apply strExt
        show catSegs (xs ++ ys) = (catSegs xs ++ ['/']) ++ joinSegs ys
        rw [catSegs_append, catSegs_cons_join ys hyne]
        simp
      have hjoin : pathJoin new (strDrop child.path (strLen old + 1)) =
          new ++ "/" ++ strDrop child.path (strLen old + 1) := by
        rw [hdrop]
        have hpj : pathJoin new ⟨joinSegs ys⟩ = ⟨catSegs (ws ++ ys)⟩ := by
          rw [hnews,
            show (⟨catSegs ws⟩ : String) = pathOfSegs ws from (pathOfSegs_ne hwne).symm]
          exact pathJoin_segs ws ys
            (by
              intro s hs
              rcases List.mem_append.mp hs with h | h
              · exact hgw s h
              · exact hgy s h) hyne
        rw [hpj, hnews]
        apply strExt
        show catSegs (ws ++ ys) = (catSegs ws ++ ['/']) ++ joinSegs ys
        rw [catSegs_append, catSegs_cons_join ys hyne]
        simp
      refine ⟨hsuffix, hjoin, ?_⟩
      unfold updateChildStep
      rw [if_neg (by simp [hpref])]
      rw [hjoin]
  · intro hpref
    unfold updateChildStep
    rw [if_pos (by simp [hpref])]

/-- C3 witness: during the example rename of `/docs` to `/archive`, the
"photos" unit rewrites `/docs/photos` to the literal `/archive/photos` and
persists it with revision 1; a stale snapshot that lost the base is
rejected with the store untouched. -/
theorem c3_witness :
    (exPhotos.path = "/docs" ++ "/" ++ strDrop exPhotos.path (strLen "/docs" + 1) ∧
      pathJoin "/archive" (strDrop exPhotos.path (strLen "/docs" + 1)) =
        "/archive" ++ "/" ++ strDrop exPhotos.path (strLen "/docs" + 1) ∧
      updateChildStep "/docs" "/archive" exDb exPhotos =
        (match updateDoc exDb { exPhotos with
            path := "/archive" ++ "/" ++ strDrop exPhotos.path (strLen "/docs" + 1) } with
         | .error e => (some e, exDb)
         | .ok (db', _) => (none, db'))) ∧
    updateChildStep "/docs" "/archive" exDb exStale1 = (some .wrongBaseDir, exDb) := by
  constructor
  · exact (c3_descendant_fixup "/docs" "/archive" exDb exPhotos (by decide) (by decide)
      (by decide) (by decide) (by decide)).1 (by decide)
  · exact (c3_descendant_fixup "/docs" "/archive" exDb exStale1 (by decide) (by decide)
      (by decide) (by decide) (by decide)).2 (by decide)

/-! ## The document store under id-preserving rewrites -/

/-- The document a fix-up unit writes: the path rewritten by prefix
substitution and the revision advanced. -/
def rwDoc (oldp newp : String) (d : DirDoc) : DirDoc :=
  { d with path := pathJoin newp (strDrop d.path (strLen oldp + 1)), objRev := d.objRev + 1 }

/-- The store with every document rewritten. -/
def dbMap (db : DB) (f : DirDoc → DirDoc) : DB :=
  { db with docs := db.docs.map f }

theorem find?_map_ids (l : List DirDoc) (f : DirDoc → DirDoc)
    (hf : ∀ d, (f d).objID = d.objID) (id : Nat) :
    ((l.map f).find? (fun d => d.objID = id)) = (l.find? (fun d => d.objID = id)).map f := by
  induction l with
  | nil => simp
  | cons a l ih =>
    by_cases ha : a.objID = id
    · simp [List.find?_cons, hf a, ha]
    · simp [List.find?_cons, hf a, ha, ih]

theorem mem_eq_of_pairwise_ids : ∀ {docs : List DirDoc},
    docs.Pairwise (fun a b => a.objID ≠ b.objID) → ∀ {e c : DirDoc},
    e ∈ docs → c ∈ docs → e.objID = c.objID → e = c := by
  intro docs hpw
  induction hpw with
  | nil => intro e c he _ _; exact absurd he (by simp)
  | cons ha _ ih =>
    intro e c he hc hid
    rcases List.mem_cons.mp he with he | he <;> rcases List.mem_cons.mp hc with hc | hc
    · rw [he, hc]
    · exact absurd (he ▸ hid) (ha c hc)
    · exact absurd (hc ▸ hid).symm (ha e he)
    · exact ih he hc hid

theorem lookup_of_mem_pairwise : ∀ {docs : List DirDoc},
    docs.Pairwise (fun a b => a.objID ≠ b.objID) → ∀ {c : DirDoc}, c ∈ docs →
    docs.find? (fun d => d.objID = c.objID) = some c := by
  intro docs hpw
  induction hpw with
  | nil => intro c hc; exact absurd hc (by simp)
  | @cons a l ha _ ih =>
    intro c hc
    rcases List.mem_cons.mp hc with hc | hc
    · subst hc
      exact List.find?_cons_of_pos _ (by simp)
    · rw [List.find?_cons_of_neg _ (by simpa using ha c hc)]
      exact ih hc

/-- A fix-up unit applied to a matching snapshot that agrees with the
store: it succeeds and rewrites exactly that document. -/
theorem updateChildStep_ok (oldp newp : String) (db : DB) (c : DirDoc)
    (hpref : hasPrefStr c.path (oldp ++ "/") = true)
    (hl : lookupDoc db c.objID = some c) :
    updateChildStep oldp newp db c =
      (none, dbMap db (fun e => if e.objID = c.objID then rwDoc oldp newp c else e)) := by
  unfold updateChildStep
  rw [if_neg (by simp [hpref])]
  dsimp only
  unfold updateDoc
  have hl' : lookupDoc db
      ({ c with path := pathJoin newp (strDrop c.path (strLen oldp + 1)) } : DirDoc).objID =
      some c := hl
  rw [hl']
  dsimp only
  rw [if_neg (by simp)]
  rfl

theorem bulkUpdateChildren_ok (oldp newp : String) :
    ∀ (cs : List DirDoc) (db : DB),
      db.docs.Pairwise (fun a b => a.objID ≠ b.objID) →
      cs.Pairwise (fun a b => a.objID ≠ b.objID) →
      (∀ c ∈ cs, hasPrefStr c.path (oldp ++ "/") = true) →
      (∀ c ∈ cs, lookupDoc db c.objID = some c) →
      bulkUpdateChildren oldp newp cs db =
        (none, dbMap db (fun d => if d.objID ∈ cs.map (fun c => c.objID) then rwDoc oldp newp d else d))
  | [], db, _, _, _, _ => by
    unfold bulkUpdateChildren dbMap
    simp
  | c :: cs', db, hdb, hcs, hpref, hl => by
    have hstep := updateChildStep_ok oldp newp db c (hpref c (by simp)) (hl c (by simp))
    have harg : bulkStep oldp newp (none, db) c =
        (none, dbMap db (fun e => if e.objID = c.objID then rwDoc oldp newp c else e)) := by
      unfold bulkStep
      rw [hstep]
    have hunf : bulkUpdateChildren oldp newp (c :: cs') db =
        bulkUpdateChildren oldp newp cs'
          (dbMap db (fun e => if e.objID = c.objID then rwDoc oldp newp c else e)) := by
      unfold bulkUpdateChildren
      rw [List.foldl_cons, harg]
    rw [hunf]
    set db₁ : DB := dbMap db (fun e => if e.objID = c.objID then rwDoc oldp newp c else e)
      with hdb₁
    have hcmem : c ∈ db.docs := by
      have := hl c (by simp)
      unfold lookupDoc at this
      exact List.mem_of_find?_eq_some this
    have hid1 : ∀ e : DirDoc,
        ((fun e => if e.objID = c.objID then rwDoc oldp newp c else e) e).objID = e.objID := by
      intro e
      by_cases he : e.objID = c.objID
      · simp [he, rwDoc]
      · simp [he]
    have hdocs₁ : db₁.docs = db.docs.map (fun e => if e.objID = c.objID then rwDoc oldp newp c else e) := rfl
    have hdb₁pw : db₁.docs.Pairwise (fun a b => a.objID ≠ b.objID) := by
      rw [hdocs₁]
      exact List.Pairwise.map _ (fun {a b} hab => by rw [hid1 a, hid1 b]; exact hab) hdb
    have hcs' : cs'.Pairwise (fun a b => a.objID ≠ b.objID) := hcs.of_cons
    have hcids : ∀ c' ∈ cs', c'.objID ≠ c.objID := by
      intro c' hc'
      exact fun hcc => (List.pairwise_cons.mp hcs).1 c' hc' hcc.symm
    have hl' : ∀ c' ∈ cs', lookupDoc db₁ c'.objID = some c' := by
      intro c' hc'
      unfold lookupDoc
      rw [hdocs₁]
      rw [find?_map_ids db.docs _ hid1 c'.objID]
      have := hl c' (by simp [hc'])
      unfold lookupDoc at this
      rw [this]
      simp [hcids c' hc']
    have ih := bulkUpdateChildren_ok oldp newp cs' db₁ hdb₁pw hcs'
      (fun x hx => hpref x (by simp [hx])) hl'
    rw [ih]
    congr 1
    show dbMap db₁ _ = _
    unfold dbMap
    rw [hdocs₁, List.map_map]
    refine congrArg (fun d => DB.mk d db.nextID) ?_
    apply List.map_congr_left
    intro e he
    by_cases h1 : e.objID = c.objID
    · have hec : e = c := mem_eq_of_pairwise_ids hdb he hcmem h1
      have h2 : e.objID ∉ cs'.map (fun c => c.objID) := by
        intro hcon
        obtain ⟨c', hc', hcc⟩ := List.mem_map.mp hcon
        exact hcids c' hc' (hcc.trans h1)
      show (fun d => if d.objID ∈ cs'.map (fun c => c.objID) then rwDoc oldp newp d else d)
          (if e.objID = c.objID then rwDoc oldp newp c else e) =
        (if e.objID ∈ (c :: cs').map (fun c => c.objID) then rwDoc oldp newp e else e)
      rw [if_pos h1]
      dsimp only
      have h3 : (rwDoc oldp newp c).objID ∉ cs'.map (fun c => c.objID) := by
        simpa [rwDoc, ← h1] using h2
      rw [if_neg h3, if_pos (by simp [h1]), hec]
    · show (fun d => if d.objID ∈ cs'.map (fun c => c.objID) then rwDoc oldp newp d else d)
          (if e.objID = c.objID then rwDoc oldp newp c else e) =
        (if e.objID ∈ (c :: cs').map (fun c => c.objID) then rwDoc oldp newp e else e)
      rw [if_neg h1]
      dsimp only
      by_cases h2 : e.objID ∈ cs'.map (fun c => c.objID)
      · rw [if_pos h2, if_pos (by simp [h2])]
      · rw [if_neg h2, if_neg (by simp [h1, h2])]

/-- Under distinct identifiers, the descendant fan-out of a move succeeds
and rewrites exactly the documents whose paths extend the cleaned old path
by a slash. -/
theorem bulkUpdateDocsPath_ok (db : DB) (olddoc : DirDoc) (newp : String)
    (hpw : db.docs.Pairwise (fun a b => a.objID ≠ b.objID)) :
    bulkUpdateDocsPath db olddoc newp =
      (none, dbMap db (fun d =>
        if hasPrefStr d.path (cleanStr olddoc.path ++ "/") = true then
          rwDoc (cleanStr olddoc.path) newp d
        else d)) := by
  unfold bulkUpdateDocsPath
  dsimp only
  set P : DirDoc → Bool := fun d => hasPrefStr d.path (cleanStr olddoc.path ++ "/") with hP
  by_cases hch : db.docs.filter P = []
  · rw [if_pos hch]
    have hnone : ∀ d ∈ db.docs, P d = false := by
      intro d hd
      by_contra hcon
      have : d ∈ db.docs.filter P := List.mem_filter.mpr ⟨hd, by simpa using hcon⟩
      rw [hch] at this
      exact absurd this (by simp)
    have hmap : db.docs.map (fun d =>
        if hasPrefStr d.path (cleanStr olddoc.path ++ "/") = true then
          rwDoc (cleanStr olddoc.path) newp d
        else d) = db.docs := by
      rw [show (fun d =>
          if hasPrefStr d.path (cleanStr olddoc.path ++ "/") = true then
            rwDoc (cleanStr olddoc.path) newp d
          else d) = (fun d => if P d = true then rwDoc (cleanStr olddoc.path) newp d else d)
        from rfl]
      rw [List.map_congr_left (fun d hd => by rw [if_neg (by simp [hnone d hd])])]
      exact List.map_id _
    unfold dbMap
    rw [hmap]
  · rw [if_neg hch]
    have hsub : List.Sublist (db.docs.filter P) db.docs := List.filter_sublist _
    have hok := bulkUpdateChildren_ok (cleanStr olddoc.path) newp (db.docs.filter P) db hpw
      (List.Pairwise.sublist hsub hpw)
      (fun c hc => by simpa [hP] using (List.mem_filter.mp hc).2)
      (fun c hc => lookup_of_mem_pairwise hpw (List.mem_filter.mp hc).1)
    rw [hok]
    congr 1
    unfold dbMap
    refine congrArg (fun d => DB.mk d db.nextID) ?_
    apply List.map_congr_left
    intro e he
    by_cases hPe : P e = true
    · rw [if_pos ?_, if_pos (by simpa [hP] using hPe)]
      have : e ∈ db.docs.filter P := List.mem_filter.mpr ⟨he, hPe⟩
      exact List.mem_map.mpr ⟨e, this, rfl⟩
    · rw [if_neg ?_, if_neg (by simpa [hP] using hPe)]
      intro hcon
      obtain ⟨c', hc', hcc⟩ := List.mem_map.mp hcon
      have hc'mem : c' ∈ db.docs := (List.mem_filter.mp hc').1
      have : c' = e := mem_eq_of_pairwise_ids hpw hc'mem he hcc
      exact hPe (by rw [← this]; exact (List.mem_filter.mp hc').2)

/-- What a successful PathResolver call tells us: the name passed
validation, the parent resolved (to the synthetic root or to a stored
directory document), and the result is the cleaned concatenation. -/
theorem getFilePath_ok {db : DB} {n : String} {fid : Nat} {pth : String} {pdoc : DirDoc}
    (h : getFilePath db n fid = .ok (pth, pdoc)) :
    checkFileName n = none ∧ pth = pathJoin pdoc.path n ∧
    (fid = RootFolderID ∧ pdoc = getRootDirDoc ∨
     fid ≠ RootFolderID ∧ lookupDoc db fid = some pdoc ∧ pdoc.type = DirType) := by
  unfold getFilePath at h
  split at h
  · exact absurd h (by simp)
  · rename_i hcheck
    split at h
    · exact absurd h (by simp)
    · rename_i parent hget
      simp only [Except.ok.injEq, Prod.mk.injEq] at h
      obtain ⟨hpth, hpdoc⟩ := h
      subst hpdoc
      refine ⟨hcheck, hpth.symm ▸ rfl, ?_⟩
      unfold getDirDoc at hget
      split at hget
      · rename_i hfid
        left
        refine ⟨hfid, ?_⟩
        simp only [Except.ok.injEq] at hget
        rw [← hget]
      · rename_i hfid
        right
        split at hget
        · exact absurd hget (by simp)
        · rename_i d hd
          split at hget
          · exact absurd hget (by simp)
          · rename_i hty
            refine ⟨hfid, ?_, ?_⟩ <;>
              [skip; skip] <;> split at hget <;>
              simp only [Except.ok.injEq] at hget <;>
              rw [← hget]
            · exact hd
            · exact hd
            · simpa using hty
            · simpa using hty

/-- What a successful `CreateDirectory` does to the document store: the
resolved path is written into the document, which is appended under a
fresh identifier and the initial revision. -/
theorem create_ok_spec {db : DB} {fs : FS} {fault : Bool} {doc r : DirDoc} {db' : DB} {fs' : FS}
    (h : createDirectory db fs fault doc = (.ok r, db', fs')) :
    ∃ pth pdoc, getFilePath db doc.name doc.folderID = .ok (pth, pdoc) ∧
      r = { doc with path := pth, objID := db.nextID, objRev := 1 } ∧
      db'.docs = db.docs ++ [r] := by
  unfold createDirectory at h
  split at h
  · exact absurd h (by simp [Prod.mk.injEq])
  · rename_i p pth pd hres
    split at h
    · exact absurd h (by simp [Prod.mk.injEq])
    · rename_i fs1 hmk
      dsimp only at h
      unfold createDoc at h
      split at h
      · exact absurd h (by simp [Prod.mk.injEq])
      · rename_i db2 stored heq
        split at heq
        · exact absurd heq (by simp)
        · dsimp only at heq
          simp only [Except.ok.injEq, Prod.mk.injEq] at heq
          obtain ⟨hdb2, hstored⟩ := heq
          simp only [Prod.mk.injEq, Except.ok.injEq] at h
          obtain ⟨hr, hdb, _⟩ := h
          refine ⟨pth, pd, hres, ?_, ?_⟩
          · rw [← hr, ← hstored]
          · rw [← hdb, ← hdb2]
            show db.docs ++ _ = _
            rw [hstored, hr]

/-- The store after a successful `updateDoc`: the document is replaced
under its identifier, with the revision advanced. -/
theorem updateDoc_ok_docs {db : DB} {d : DirDoc} {db' : DB} {d' : DirDoc}
    (h : updateDoc db d = .ok (db', d')) :
    db'.docs = db.docs.map
      (fun e => if e.objID = d.objID then { d with objRev := d.objRev + 1 } else e) := by
  unfold updateDoc at h
  split at h
  · exact absurd h (by simp)
  · rename_i stored hst
    split at h
    · exact absurd h (by simp)
    · dsimp only at h
      simp only [Except.ok.injEq, Prod.mk.injEq] at h
      rw [← h.1]

/-- Full characterization of a successful `ModifyDirectoryMetadata` under
distinct identifiers: the provenance of the recomputed path, the returned
node, the physical-rename behavior, and the resulting document store (the
fan-out rewrite followed by the node's own update). -/
theorem modify_ok_spec {db : DB} {fs : FS} {olddoc : DirDoc} {data : DocMetaAttributes}
    {r : DirDoc} {db' : DB} {fs' : FS}
    (hpw : db.docs.Pairwise (fun a b => a.objID ≠ b.objID))
    (h : modifyDirectoryMetadata db fs olddoc data = (.ok r, db', fs')) :
    ∃ pth1 folderID1,
      ((∀ f, data.folderID = some f → f = olddoc.folderID) ∧
          pth1 = olddoc.path ∧ folderID1 = olddoc.folderID ∨
        ∃ f pdoc, data.folderID = some f ∧ f ≠ olddoc.folderID ∧
          getFilePath db olddoc.name f = .ok (pth1, pdoc) ∧ folderID1 = f) ∧
      r = { type := DirType
            objID := olddoc.objID
            objRev := olddoc.objRev + 1
            name := (if data.name ≠ "" then data.name else olddoc.name)
            folderID := folderID1
            createdAt := olddoc.createdAt
            updatedAt := (match data.updatedAt with
              | some t => t
              | none => olddoc.updatedAt)
            path := (if data.name ≠ "" then pathJoin (pathDir pth1) data.name else pth1)
            tags := (match data.tags with
              | some ts => appendTags olddoc.tags ts
              | none => olddoc.tags) } ∧
      (r.path ≠ olddoc.path → safeRenameDirectory olddoc.path r.path fs = .ok fs') ∧
      (r.path = olddoc.path → fs' = fs) ∧
      checkFileName (if data.name ≠ "" then data.name else olddoc.name) = none ∧
      db'.docs = (db.docs.map (fun d =>
          if hasPrefStr d.path (cleanStr olddoc.path ++ "/") = true then
            rwDoc (cleanStr olddoc.path) r.path d
          else d)).map (fun e => if e.objID = olddoc.objID then r else e) := by
  unfold modifyDirectoryMetadata at h
  dsimp only at h
  split at h
  · exact absurd h (by simp [Prod.mk.injEq])
  · rename_i pf pth1 folderID1 heq1
    refine ⟨pth1, folderID1, ?_, ?_⟩
    · split at heq1
      · rename_i f hf
        split at heq1
        · rename_i hne
          split at heq1
          · exact absurd heq1 (by simp)
          · rename_i pr pd hgfp
            right
            simp only [Except.ok.injEq, Prod.mk.injEq] at heq1
            rw [heq1.1] at hgfp
            exact ⟨f, pd, hf, hne, hgfp, heq1.2.symm⟩
        · rename_i hne
          left
          simp only [Except.ok.injEq, Prod.mk.injEq] at heq1
          refine ⟨?_, heq1.1.symm, heq1.2.symm⟩
          intro f' hf'
          rw [hf] at hf'
          injection hf' with hf'
          subst hf'
          simpa using hne
      · rename_i hf
        left
        simp only [Except.ok.injEq, Prod.mk.injEq] at heq1
        exact ⟨fun f' hf' => absurd (hf ▸ hf') (by simp), heq1.1.symm, heq1.2.symm⟩
    · split at h
      · exact absurd h (by simp [Prod.mk.injEq])
      · rename_i hdate
        split at h
        · exact absurd h (by simp [Prod.mk.injEq])
        · rename_i nd heqnd
          have hcheck : checkFileName (if data.name ≠ "" then data.name else olddoc.name) =
              none := by
            unfold newDirDoc at heqnd
            split at heqnd
            · exact absurd heqnd (by simp)
            · rename_i hck
              exact hck
          have hndval := heqnd
          unfold newDirDoc at hndval
          rw [hcheck] at hndval
          simp only [Except.ok.injEq] at hndval
          subst hndval
          split at h
          · exact absurd h (by simp [Prod.mk.injEq])
          · rename_i fs1 heqfs
            split at h
            · exact absurd h (by simp [Prod.mk.injEq])
            · rename_i db1 heqbulk
              split at h
              · exact absurd h (by simp [Prod.mk.injEq])
              · rename_i db2 stored hequpd
                simp only [Prod.mk.injEq, Except.ok.injEq] at h
                obtain ⟨hr, hdb, hfs⟩ := h
                have hrspec := updateDoc_ok_lookup hequpd
                have hrval := hr.symm.trans hrspec.1
                have hrlit : r =
                    { type := DirType
                      objID := olddoc.objID
                      objRev := olddoc.objRev + 1
                      name := (if data.name ≠ "" then data.name else olddoc.name)
                      folderID := folderID1
                      createdAt := olddoc.createdAt
                      updatedAt := (match data.updatedAt with
                        | some t => t
                        | none => olddoc.updatedAt)
                      path := (if data.name ≠ "" then pathJoin (pathDir pth1) data.name
                        else pth1)
                      tags := (match data.tags with
                        | some ts => appendTags olddoc.tags ts
                        | none => olddoc.tags) } := by
                  rw [hrval]
                have hrpath : r.path =
                    (if data.name ≠ "" then pathJoin (pathDir pth1) data.name else pth1) := by
                  rw [hrval]
                refine ⟨hrlit, ?_, ?_, hcheck, ?_⟩
                · intro hne
                  rw [hrpath] at hne ⊢
                  rw [if_pos hne] at heqfs
                  rw [heqfs, hfs]
                · intro hsame
                  rw [hrpath] at hsame
                  rw [if_neg (by simp [hsame])] at heqfs
                  simp only [Except.ok.injEq] at heqfs
                  rw [← hfs, ← heqfs]
                · have hbulk := bulkUpdateDocsPath_ok db olddoc
                    (if data.name ≠ "" then pathJoin (pathDir pth1) data.name else pth1) hpw
                  rw [heqbulk] at hbulk
                  simp only [Prod.mk.injEq] at hbulk
                  have hdb1 := hbulk.2
                  have hdocs2 := updateDoc_ok_docs hequpd
                  rw [hrpath, hrlit, ← hdb, hdocs2, hdb1]
                  rfl

theorem docWF_iff {d : DirDoc} : docWF d = true ↔
    isCleanAbsStr d.path = true ∧ d.path ≠ "/" ∧ goodSegB d.name.data = true ∧
    d.objID ≠ RootFolderID := by
  simp [docWF, and_assoc]

/-- Decomposition of a path that extends a base path by a slash: both are
segment paths and the dropped remainder is the relative segment path. -/
theorem rewrite_of_pref {base p : String} (hbase : isCleanAbsStr base = true)
    (hbr : base ≠ "/") (hp : isCleanAbsStr p = true)
    (hpref : hasPrefStr p (base ++ "/") = true) :
    ∃ xs ys, xs ≠ [] ∧ ys ≠ [] ∧ (∀ s ∈ xs, GoodSeg s) ∧ (∀ s ∈ ys, GoodSeg s) ∧
      base.data = catSegs xs ∧ p.data = catSegs (xs ++ ys) ∧
      strDrop p (strLen base + 1) = ⟨joinSegs ys⟩ := by
  obtain ⟨xs, hxne, hgx, hxd⟩ := parse_cleanAbs hbase hbr
  have hbs : base = ⟨catSegs xs⟩ := strExt hxd
  rcases (isCleanAbs_iff p).mp hp with hpr | ⟨zs, hzne, hgz, hzd⟩
  · exfalso
    rw [hpr, hbs] at hpref
    rw [hasPrefStr_iff] at hpref
    obtain ⟨t, ht⟩ := hpref
    have hlen := congrArg List.length ht
    have h2 : ((⟨catSegs xs⟩ : String) ++ "/").data = catSegs xs ++ ['/'] := rfl
    rw [h2] at hlen
    obtain ⟨t₀, hht₀⟩ := catSegs_head xs hxne
    have h1 : (("/" : String)).data.length = 1 := rfl
    simp [h1, hht₀] at hlen
  · have hps : p = ⟨catSegs zs⟩ := strExt hzd
    have hdec : ∃ ys, ys ≠ [] ∧ zs = xs ++ ys := by
      rw [hps, hbs] at hpref
      exact (hasPref_catSegs_iff xs zs hgx hgz hxne).mp hpref
    obtain ⟨ys, hyne, hzeq⟩ := hdec
    refine ⟨xs, ys, hxne, hyne, hgx, fun s hs => hgz s (by rw [hzeq]; simp [hs]), hxd,
      by rw [hzd, hzeq], ?_⟩
    rw [hps, hbs, hzeq]
    exact strDrop_concat xs ys hyne

/-- Rewriting a nested path onto its own base is the identity. -/
theorem pathJoin_drop_self {base p : String} (hbase : isCleanAbsStr base = true)
    (hbr : base ≠ "/") (hp : isCleanAbsStr p = true)
    (hpref : hasPrefStr p (base ++ "/") = true) :
    pathJoin base (strDrop p (strLen base + 1)) = p := by
  obtain ⟨xs, ys, hxne, hyne, hgx, hgy, hxd, hpd, hdrop⟩ :=
    rewrite_of_pref hbase hbr hp hpref
  rw [hdrop, strExt hxd]
  rw [show (⟨catSegs xs⟩ : String) = pathOfSegs xs from (pathOfSegs_ne hxne).symm]
  rw [pathJoin_segs xs ys
    (by
      intro s hs
      rcases List.mem_append.mp hs with h | h
      · exact hgx s h
      · exact hgy s h) hyne]
  exact (strExt hpd).symm

/-! ## Claim C5 amended theorem -/

/-- C5 amended: only the physical rename is guarded by a path change.  For
a successful `ModifyDirectoryMetadata` whose resulting path equals the
original path, the physical store is untouched, but the descendant fan-out
still ran: every stored document under `olddoc.path ++ "/"` has been
re-persisted under an advanced revision (with its path value unchanged). -/
theorem c5_fanout_always_runs (db : DB) (fs : FS) (olddoc : DirDoc) (data : DocMetaAttributes)
    (r : DirDoc) (db' : DB) (fs' : FS) (hWF : WFdb db) (hmem : olddoc ∈ db.docs)
    (h : modifyDirectoryMetadata db fs olddoc data = (.ok r, db', fs'))
    (hsame : r.path = olddoc.path) :
    fs' = fs ∧
    ∀ d ∈ db.docs, hasPrefStr d.path (olddoc.path ++ "/") = true →
      lookupDoc db' d.objID = some { d with objRev := d.objRev + 1 } := by
  have hpw : db.docs.Pairwise (fun a b => a.objID ≠ b.objID) :=
    hWF.1.imp (fun hab => hab.1)
  obtain ⟨pth1, folderID1, _, hrlit, _, hsfs, _, hdocs⟩ := modify_ok_spec hpw h
  have hWFo := docWF_iff.mp (hWF.2 olddoc hmem)
  have hclean : cleanStr olddoc.path = olddoc.path := cleanStr_cleanAbs hWFo.1
  refine ⟨hsfs hsame, ?_⟩
  intro d hd hpref
  have hWFd := docWF_iff.mp (hWF.2 d hd)
  have hdo : d.objID ≠ olddoc.objID := by
    intro hcon
    have : d = olddoc := mem_eq_of_pairwise_ids hpw hd hmem hcon
    rw [this] at hpref
    rw [hasPrefStr_self_slash olddoc.path] at hpref
    exact absurd hpref (by simp)
  have hrw : rwDoc (cleanStr olddoc.path) r.path d = { d with objRev := d.objRev + 1 } := by
    unfold rwDoc
    rw [hclean, hsame]
    rw [pathJoin_drop_self hWFo.1 hWFo.2.1 hWFd.1 hpref]
  have hid1 : ∀ e : DirDoc,
      ((fun e => if hasPrefStr e.path (cleanStr olddoc.path ++ "/") = true then
        rwDoc (cleanStr olddoc.path) r.path e else e) e).objID = e.objID := by
    intro e
    by_cases he : hasPrefStr e.path (cleanStr olddoc.path ++ "/") = true
    · simp [he, rwDoc]
    · simp [he]
  have hid2 : ∀ e : DirDoc,
      ((fun e => if e.objID = olddoc.objID then r else e) e).objID = e.objID := by
    intro e
    by_cases he : e.objID = olddoc.objID
    · simp [he, hrlit]
    · simp [he]
  unfold lookupDoc
  rw [hdocs]
  rw [find?_map_ids _ _ hid2, find?_map_ids _ _ hid1]
  rw [lookup_of_mem_pairwise hpw hd]
  have hprefc : hasPrefStr d.path (cleanStr olddoc.path ++ "/") = true := by
    rw [hclean]
    exact hpref
  show some ((fun e => if e.objID = olddoc.objID then r else e)
      ((fun e => if hasPrefStr e.path (cleanStr olddoc.path ++ "/") = true then
        rwDoc (cleanStr olddoc.path) r.path e else e) d)) = _
  dsimp only
  rw [if_pos hprefc, hrw]
  rw [if_neg (by simpa using hdo)]

/-- C5 witness: the tags-only change leaves the physical store as is but
re-persists the "photos" descendant under revision 2. -/
theorem c5_witness :
    exFs = exFs ∧
    lookupDoc ⟨[{ exDocs with objRev := 2, tags := ["t"] }, { exPhotos with objRev := 2 }], 3⟩
        exPhotos.objID = some { exPhotos with objRev := 2 } := by
  have h := c5_fanout_always_runs exDb exFs exDocs ⟨"", none, some ["t"], none⟩
    { exDocs with objRev := 2, tags := ["t"] }
    ⟨[{ exDocs with objRev := 2, tags := ["t"] }, { exPhotos with objRev := 2 }], 3⟩ exFs
    (by decide) (by decide) (by decide) (by decide)
  exact ⟨h.1, h.2 exPhotos (by decide) (by decide)⟩

theorem strEta (s : String) : s = ⟨s.data⟩ := by cases s; rfl

theorem checkFileName_none_iff {n : String} : checkFileName n = none ↔ GoodSeg n.data := by
  have hempty : (n = "") ↔ n.data = [] :=
    ⟨fun h => by rw [h], fun h => strExt (by rw [h])⟩
  have hdot : (n = ".") ↔ n.data = ['.'] :=
    ⟨fun h => by rw [h], fun h => strExt (by rw [h])⟩
  have hdd : (n = "..") ↔ n.data = ['.', '.'] :=
    ⟨fun h => by rw [h], fun h => strExt (by rw [h])⟩
  unfold checkFileName GoodSeg
  constructor
  · intro h
    split at h
    · exact absurd h (by simp)
    · rename_i hc
      push_neg at hc
      obtain ⟨h1, h2, h3, h4⟩ := hc
      exact ⟨fun hh => h1 (hempty.mpr hh), fun hh => h3 (hdot.mpr hh),
        fun hh => h4 (hdd.mpr hh), fun hh => h2 (List.elem_iff.mpr hh)⟩
  · intro ⟨h1, h2, h3, h4⟩
    rw [if_neg]
    push_neg
    exact ⟨fun hh => h1 (hempty.mp hh), fun hc => h4 (List.elem_iff.mp hc),
      fun hh => h2 (hdot.mp hh), fun hh => h3 (hdd.mp hh)⟩

theorem dirPathOK_iff {db : DB} {d : DirDoc} : dirPathOK db d = true ↔
    ∃ pp, parentPathOf db d = some pp ∧ d.path = concatPath pp d.name := by
  unfold dirPathOK
  cases h : parentPathOf db d with
  | none => simp
  | some pp => simp [h]

theorem mem_eq_of_pairwise_paths : ∀ {docs : List DirDoc},
    docs.Pairwise (fun a b => a.objID ≠ b.objID ∧ a.path ≠ b.path) → ∀ {e c : DirDoc},
    e ∈ docs → c ∈ docs → e.path = c.path → e = c := by
  intro docs hpw
  induction hpw with
  | nil => intro e c he _ _; exact absurd he (by simp)
  | cons ha _ ih =>
    intro e c he hc hid
    rcases List.mem_cons.mp he with he | he <;> rcases List.mem_cons.mp hc with hc | hc
    · rw [he, hc]
    · exact absurd (he ▸ hid) (ha c hc).2
    · exact absurd (hc ▸ hid).symm (ha e he).2
    · exact ih he hc hid

theorem lookup_id {db : DB} {f : Nat} {p : DirDoc} (h : lookupDoc db f = some p) :
    p.objID = f ∧ p ∈ db.docs := by
  unfold lookupDoc at h
  exact ⟨by simpa using List.find?_some h, List.mem_of_find?_eq_some h⟩

theorem catSegs_ne_root {xs : List (List Char)} (hg : ∀ s ∈ xs, GoodSeg s) (hne : xs ≠ []) :
    (⟨catSegs xs⟩ : String) ≠ "/" := by
  intro hc
  have hd := congrArg String.data hc
  obtain ⟨x, xs', hxx⟩ : ∃ x xs', xs = x :: xs' := by
    cases xs with
    | nil => exact absurd rfl hne
    | cons a b => exact ⟨a, b, rfl⟩
  rw [hxx] at hd
  have hx : x ≠ [] := (hg x (by simp [hxx])).1
  have hd0 : catSegs (x :: xs') = ['/'] := hd
  have hd' : '/' :: (x ++ catSegs xs') = ['/'] := by simpa [catSegs] using hd0
  injection hd' with _ h2
  exact hx (List.append_eq_nil.mp h2).1

theorem sepFree_append_eq : ∀ (x y t₁ t₂ : List Char), '/' ∉ x → '/' ∉ y →
    (t₁ = [] ∨ ∃ u, t₁ = '/' :: u) → (t₂ = [] ∨ ∃ u, t₂ = '/' :: u) →
    x ++ t₁ = y ++ t₂ → x = y ∧ t₁ = t₂
  | [], [], t₁, t₂, _, _, _, _, h => ⟨rfl, by simpa using h⟩
  | [], c :: y', t₁, t₂, _, hy, ht₁, _, h => by
    exfalso
    rcases ht₁ with h1 | ⟨u, hu⟩
    · rw [h1] at h
      have := congrArg List.length h
      simp at this
    · rw [hu] at h
      have h' : '/' :: u = c :: (y' ++ t₂) := by simpa using h
      injection h' with h1 _
      exact hy (by simp [← h1])
  | c :: x', [], t₁, t₂, hx, _, _, ht₂, h => by
    exfalso
    rcases ht₂ with h1 | ⟨u, hu⟩
    · rw [h1] at h
      have := congrArg List.length h
      simp at this
    · rw [hu] at h
      have h' : c :: (x' ++ t₁) = '/' :: u := by simpa using h
      injection h' with h1 _
      exact hx (by simp [h1])
  | c :: x', d :: y', t₁, t₂, hx, hy, ht₁, ht₂, h => by
    have h' : c :: (x' ++ t₁) = d :: (y' ++ t₂) := by simpa using h
    injection h' with h1 h2
    have ih := sepFree_append_eq x' y' t₁ t₂ (fun hm => hx (by simp [hm]))
      (fun hm => hy (by simp [hm])) ht₁ ht₂ h2
    exact ⟨by rw [h1, ih.1], ih.2⟩

theorem catSegs_inj : ∀ (xs ys : List (List Char)), (∀ s ∈ xs, GoodSeg s) →
    (∀ s ∈ ys, GoodSeg s) → catSegs xs = catSegs ys → xs = ys
  | [], [], _, _, _ => rfl
  | [], y :: ys', _, _, h => by
    exfalso
    have := congrArg List.length h
    simp [catSegs] at this
  | x :: xs', [], _, _, h => by
    exfalso
    have := congrArg List.length h
    simp [catSegs] at this
  | x :: xs', y :: ys', hgx, hgy, h => by
    have h' : x ++ catSegs xs' = y ++ catSegs ys' := by
      have h2 : '/' :: (x ++ catSegs xs') = '/' :: (y ++ catSegs ys') := by
        simpa [catSegs] using h
      injection h2
    have hx : '/' ∉ x := (hgx x (by simp)).2.2.2
    have hy : '/' ∉ y := (hgy y (by simp)).2.2.2
    have ht : ∀ zs : List (List Char), catSegs zs = [] ∨ ∃ u, catSegs zs = '/' :: u := by
      intro zs
      cases zs with
      | nil => exact Or.inl rfl
      | cons a b => exact Or.inr ⟨a ++ catSegs b, rfl⟩
    have := sepFree_append_eq x y (catSegs xs') (catSegs ys') hx hy (ht xs') (ht ys') h'
    have ih := catSegs_inj xs' ys' (fun s hs => hgx s (by simp [hs]))
      (fun s hs => hgy s (by simp [hs])) this.2
    rw [this.1, ih]

/-- The cleaned concatenation computed by `path.Join` coincides with the
invariant's `concatPath`. -/
theorem pathJoin_concatPath {pp n : String} (hpp : isCleanAbsStr pp = true)
    (hn : GoodSeg n.data) : pathJoin pp n = concatPath pp n := by
  have hjn : (⟨joinSegs [n.data]⟩ : String) = n := strExt rfl
  rcases (isCleanAbs_iff pp).mp hpp with hroot | ⟨xs, hxne, hgx, hxd⟩
  · subst hroot
    have h1 := pathJoin_segs [] [n.data] (by simpa using hn) (by simp)
    rw [show pathOfSegs [] = "/" from rfl] at h1
    rw [hjn] at h1
    rw [h1]
    unfold concatPath
    rw [if_pos rfl]
    apply strExt
    show catSegs [n.data] = '/' :: n.data
    simp [catSegs]
  · have hpps : pp = ⟨catSegs xs⟩ := strExt hxd
    have h1 := pathJoin_segs xs [n.data]
      (by
        intro s hs
        rcases List.mem_append.mp hs with h | h
        · exact hgx s h
        · simpa using (by simpa using h : s = n.data) ▸ hn) (by simp)
    rw [pathOfSegs_ne hxne, hjn] at h1
    rw [hpps, h1]
    have h2 := concatPath_segs xs n.data hgx
    rw [pathOfSegs_ne hxne] at h2
    rw [← h2]

theorem find?_append_of_some {l₁ l₂ : List DirDoc} {p : DirDoc → Bool} {x : DirDoc}
    (h : l₁.find? p = some x) : (l₁ ++ l₂).find? p = some x := by
  induction l₁ with
  | nil => simp at h
  | cons a l ih =>
    by_cases ha : p a = true
    · rw [List.find?_cons_of_pos _ ha] at h
      rw [List.cons_append, List.find?_cons_of_pos _ ha]
      exact h
    · rw [List.find?_cons_of_neg _ ha] at h
      rw [List.cons_append, List.find?_cons_of_neg _ ha]
      exact ih h

theorem concatPath_data {pp n : String} (h : pp ≠ "/") :
    (concatPath pp n).data = pp.data ++ '/' :: n.data := by
  unfold concatPath
  rw [if_neg h]
  show (pp.data ++ ['/']) ++ n.data = pp.data ++ '/' :: n.data
  simp

theorem concatPath_pref {pp n : String} (h : pp ≠ "/") :
    hasPrefStr (concatPath pp n) (pp ++ "/") = true := by
  rw [hasPrefStr_iff]
  refine ⟨n.data, ?_⟩
  rw [concatPath_data h]
  show pp.data ++ '/' :: n.data = (pp.data ++ ['/']) ++ n.data
  simp

theorem concatPath_pref_of_pref {pp n b : String} (hroot : pp ≠ "/")
    (h : hasPrefStr pp b = true) : hasPrefStr (concatPath pp n) b = true := by
  rw [hasPrefStr_iff] at h ⊢
  obtain ⟨u, hu⟩ := h
  refine ⟨u ++ '/' :: n.data, ?_⟩
  rw [concatPath_data hroot, hu]
  simp

/-- A successful safe rename implies the destination does not extend the
source by a slash (otherwise the move would have been forbidden). -/
theorem safeRename_ok_no_pref {o n : String} {fs fs' : FS}
    (h : safeRenameDirectory o n fs = .ok fs') :
    hasPrefStr (cleanStr n) (cleanStr o ++ "/") = false := by
  unfold safeRenameDirectory at h
  dsimp only at h
  split at h
  · exact absurd h (by simp)
  · split at h
    · exact absurd h (by simp)
    · rename_i hpref
      simpa using hpref

theorem lookup_two_maps (db : DB) (f g : DirDoc → DirDoc)
    (hf : ∀ d, (f d).objID = d.objID) (hg : ∀ d, (g d).objID = d.objID) (i : Nat) :
    ((db.docs.map f).map g).find? (fun d => d.objID = i) =
      (db.docs.find? (fun d => d.objID = i)).map (fun d => g (f d)) := by
  rw [find?_map_ids _ g hg, find?_map_ids _ f hf, Option.map_map]
  rfl

/-- Under the invariant, a stored directory document decomposes into its
parent's segment path extended by its own name segment. -/
theorem parent_segs (db : DB) (hWF : WFdb db) (hInv : PathInv db) (e : DirDoc)
    (he : e ∈ db.docs) (hety : e.type = DirType) :
    ∃ pp qs, parentPathOf db e = some pp ∧ e.path = concatPath pp e.name ∧
      (∀ s ∈ qs, GoodSeg s) ∧ pp = pathOfSegs qs ∧
      e.path.data = catSegs (qs ++ [e.name.data]) ∧
      (e.folderID = RootFolderID ∧ qs = [] ∨
        ∃ p, e.folderID ≠ RootFolderID ∧ lookupDoc db e.folderID = some p ∧
          p.type = DirType ∧ p.path = pp ∧ qs ≠ []) := by
  obtain ⟨pp, hpp, hcp⟩ := dirPathOK_iff.mp (hInv e he hety)
  have hppOf : ∀ qs, (∀ s ∈ qs, GoodSeg s) → pp = pathOfSegs qs →
      e.path.data = catSegs (qs ++ [e.name.data]) := by
    intro qs hg hpq
    rw [hcp, hpq]
    exact congrArg String.data (concatPath_segs qs e.name.data hg)
  have hpp' := hpp
  unfold parentPathOf at hpp'
  by_cases hrt : e.folderID = RootFolderID
  · rw [if_pos hrt] at hpp'
    have hppr : pp = "/" := by
      injection hpp' with h0
      exact h0.symm
    have hpq : pp = pathOfSegs [] := by rw [hppr]; rfl
    exact ⟨pp, [], hpp, hcp, by simp, hpq, hppOf [] (by simp) hpq, Or.inl ⟨hrt, rfl⟩⟩
  · rw [if_neg hrt] at hpp'
    cases hl : lookupDoc db e.folderID with
    | none => rw [hl] at hpp'; simp at hpp'
    | some p =>
      rw [hl] at hpp'
      have hpp2 : (if p.type = DirType then some p.path else none) = some pp := hpp'
      by_cases hpty : p.type = DirType
      · rw [if_pos hpty] at hpp2
        injection hpp2 with hpeq
        have hpWF := docWF_iff.mp (hWF.2 p (lookup_id hl).2)
        obtain ⟨qs, hqne, hgq, hqd⟩ := parse_cleanAbs hpWF.1 hpWF.2.1
        have hpq : pp = pathOfSegs qs := by
          rw [← hpeq, pathOfSegs_ne hqne]
          exact strExt hqd
        exact ⟨pp, qs, hpp, hcp, hgq, hpq, hppOf qs hgq hpq,
          Or.inr ⟨p, hrt, rfl, hpty, hpeq, hqne⟩⟩
      · rw [if_neg hpty] at hpp2
        simp at hpp2

/-- Path-invariant preservation by a successful `CreateDirectory`: the old
documents keep their resolved parents, and the new document's path is by
construction the cleaned concatenation of its parent's path and its name. -/
theorem createPreservesPathInv (db : DB) (fs : FS) (fault : Bool) (doc r : DirDoc)
    (db' : DB) (fs' : FS) (hWF : WFdb db) (hInv : PathInv db)
    (h : createDirectory db fs fault doc = (.ok r, db', fs')) : PathInv db' := by
  obtain ⟨pth, pdoc, hgfp, hr, hdocs⟩ := create_ok_spec h
  obtain ⟨hcheck, hpth, hparent⟩ := getFilePath_ok hgfp
  have hlook : ∀ i p, lookupDoc db i = some p → lookupDoc db' i = some p := by
    intro i p hp
    show db'.docs.find? _ = some p
    rw [hdocs]
    exact find?_append_of_some hp
  have hgood : GoodSeg doc.name.data := checkFileName_none_iff.mp hcheck
  have hrfid : r.folderID = doc.folderID := by rw [hr]
  have hrname : r.name = doc.name := by rw [hr]
  have hrpath : r.path = pth := by rw [hr]
  intro d hd hty
  rw [hdocs] at hd
  rcases List.mem_append.mp hd with hdm | hdm
  · have hold := hInv d hdm hty
    rw [dirPathOK_iff] at hold ⊢
    obtain ⟨pp, hpp, hcp⟩ := hold
    refine ⟨pp, ?_, hcp⟩
    unfold parentPathOf at hpp ⊢
    by_cases hrt : d.folderID = RootFolderID
    · rw [if_pos hrt] at hpp ⊢
      exact hpp
    · rw [if_neg hrt] at hpp ⊢
      cases hl : lookupDoc db d.folderID with
      | none => rw [hl] at hpp; simp at hpp
      | some p =>
        rw [hl] at hpp
        rw [hlook _ _ hl]
        exact hpp
  · have hdr : d = r := by simpa using hdm
    subst hdr
    rw [dirPathOK_iff]
    rcases hparent with ⟨hfid, hpd⟩ | ⟨hfid, hl, htyp⟩
    · refine ⟨"/", ?_, ?_⟩
      · unfold parentPathOf
        rw [if_pos (by rw [hrfid, hfid])]
      · rw [hrpath, hrname, hpth, hpd]
        have hrt : getRootDirDoc.path = "/" := rfl
        rw [hrt]
        exact pathJoin_concatPath (by decide) hgood
    · have hclean : isCleanAbsStr pdoc.path = true :=
        (docWF_iff.mp (hWF.2 pdoc (lookup_id hl).2)).1
      refine ⟨pdoc.path, ?_, ?_⟩
      · unfold parentPathOf
        rw [if_neg (by rw [hrfid]; exact hfid)]
        have hl' : lookupDoc db' d.folderID = some pdoc := by
          rw [hrfid]
          exact hlook _ _ hl
        rw [hl']
        show (if pdoc.type = DirType then some pdoc.path else none) = some pdoc.path
        rw [if_pos htyp]
      · rw [hrpath, hrname, hpth]
        exact pathJoin_concatPath hclean hgood

/-- The per-document rewrite of the descendant fan-out stage, as a named
function (definitionally the lambda of `modify_ok_spec`). -/
def bulkRW (olddoc : DirDoc) (newp : String) : DirDoc → DirDoc := fun d =>
  if hasPrefStr d.path (cleanStr olddoc.path ++ "/") = true then
    rwDoc (cleanStr olddoc.path) newp d
  else d

/-- The final-update replacement of the node's own document, as a named
function (definitionally the lambda of `modify_ok_spec`). -/
def replOne (olddoc r : DirDoc) : DirDoc → DirDoc := fun e =>
  if e.objID = olddoc.objID then r else e

theorem bulkRW_id (olddoc : DirDoc) (newp : String) (d : DirDoc)
    (h : hasPrefStr d.path (cleanStr olddoc.path ++ "/") = false) :
    bulkRW olddoc newp d = d := by
  unfold bulkRW
  rw [if_neg (by rw [h]; simp)]

theorem bulkRW_rw (olddoc : DirDoc) (newp : String) (d : DirDoc)
    (h : hasPrefStr d.path (cleanStr olddoc.path ++ "/") = true) :
    bulkRW olddoc newp d = rwDoc (cleanStr olddoc.path) newp d := by
  unfold bulkRW
  rw [if_pos h]

theorem replOne_hit (olddoc r d : DirDoc) (h : d.objID = olddoc.objID) :
    replOne olddoc r d = r := by
  unfold replOne
  rw [if_pos h]

theorem replOne_miss (olddoc r d : DirDoc) (h : d.objID ≠ olddoc.objID) :
    replOne olddoc r d = d := by
  unfold replOne
  rw [if_neg h]

theorem bulkRW_objID (olddoc : DirDoc) (newp : String) (d : DirDoc) :
    (bulkRW olddoc newp d).objID = d.objID := by
  unfold bulkRW
  split <;> rfl

theorem replOne_objID (olddoc r : DirDoc) (h : r.objID = olddoc.objID) (d : DirDoc) :
    (replOne olddoc r d).objID = d.objID := by
  unfold replOne
  split
  · rename_i hh
    rw [h, hh]
  · rfl

theorem parentPathOf_root {db : DB} {d : DirDoc} (hr : d.folderID = RootFolderID) :
    parentPathOf db d = some "/" := by
  unfold parentPathOf
  rw [if_pos hr]

theorem parentPathOf_nonroot {db : DB} {d : DirDoc} {p : DirDoc}
    (hnr : d.folderID ≠ RootFolderID) (hl : lookupDoc db d.folderID = some p)
    (hty : p.type = DirType) : parentPathOf db d = some p.path := by
  unfold parentPathOf
  rw [if_neg hnr, hl]
  show (if p.type = DirType then some p.path else none) = some p.path
  rw [if_pos hty]

/-- Path-invariant preservation by a successful `ModifyDirectoryMetadata`
on a stored directory document: the node's recomputed path is the cleaned
concatenation for its (possibly new) parent, every descendant is rewritten
consistently with its own rewritten parent, and every other document keeps
its untouched parent. -/
theorem modifyPreservesPathInv (db : DB) (fs : FS) (olddoc : DirDoc)
    (data : DocMetaAttributes) (r : DirDoc) (db' : DB) (fs' : FS)
    (hWF : WFdb db) (hInv : PathInv db) (hmem : olddoc ∈ db.docs)
    (htype : olddoc.type = DirType)
    (h : modifyDirectoryMetadata db fs olddoc data = (.ok r, db', fs')) : PathInv db' := by
  have hpw : db.docs.Pairwise (fun a b => a.objID ≠ b.objID) :=
    hWF.1.imp (fun hab => hab.1)
  obtain ⟨pth1, folderID1, hprov, hrlit, hren, hsamefs, hcheck, hdocs⟩ := modify_ok_spec hpw h
  have hdocs' : db'.docs = (db.docs.map (bulkRW olddoc r.path)).map (replOne olddoc r) :=
    hdocs
  obtain ⟨hoclean, honr, hogname, hoid⟩ := docWF_iff.mp (hWF.2 olddoc hmem)
  have hcleanold : cleanStr olddoc.path = olddoc.path := cleanStr_cleanAbs hoclean
  have honG : GoodSeg olddoc.name.data := goodSegB_iff.mp hogname
  obtain ⟨pp₀, qs₀, hpp₀, hcp₀, hgq₀, hpps₀, hpd₀, hpar₀⟩ :=
    parent_segs db hWF hInv olddoc hmem htype
  have hgx₀ : ∀ s ∈ qs₀ ++ [olddoc.name.data], GoodSeg s := by
    intro s hs
    rcases List.mem_append.mp hs with hs | hs
    · exact hgq₀ s hs
    · rw [List.mem_singleton.mp hs]
      exact honG
  have hrid : r.objID = olddoc.objID := by rw [hrlit]
  have hrty : r.type = DirType := by rw [hrlit]
  have hrfid : r.folderID = folderID1 := by rw [hrlit]
  have hrname : r.name = (if data.name ≠ "" then data.name else olddoc.name) := by rw [hrlit]
  have hrpath : r.path =
      (if data.name ≠ "" then pathJoin (pathDir pth1) data.name else pth1) := by rw [hrlit]
  have hgname : GoodSeg r.name.data := by
    rw [hrname]
    exact checkFileName_none_iff.mp hcheck
  have hpth1 : ∃ qs, (∀ s ∈ qs, GoodSeg s) ∧
      pth1.data = catSegs (qs ++ [olddoc.name.data]) ∧
      (folderID1 = RootFolderID ∧ qs = [] ∨
        ∃ pd, lookupDoc db folderID1 = some pd ∧ pd.type = DirType ∧
          pd.path = pathOfSegs qs ∧ qs ≠ []) := by
    rcases hprov with ⟨_, hp1, hf1⟩ | ⟨f, pdoc, _, _, hgfp, hf1⟩
    · refine ⟨qs₀, hgq₀, by rw [hp1]; exact hpd₀, ?_⟩
      rcases hpar₀ with ⟨hrt, hq⟩ | ⟨p₀, _, hl₀, hty₀, hpath₀, hqne₀⟩
      · exact Or.inl ⟨by rw [hf1]; exact hrt, hq⟩
      · exact Or.inr ⟨p₀, by rw [hf1]; exact hl₀, hty₀, by rw [hpath₀, hpps₀], hqne₀⟩
    · obtain ⟨_, hpj, hpar⟩ := getFilePath_ok hgfp
      rcases hpar with ⟨hfid, hpd⟩ | ⟨hfid, hl, htyp⟩
      · refine ⟨[], by simp, ?_, Or.inl ⟨by rw [hf1]; exact hfid, rfl⟩⟩
        rw [hpj, hpd]
        have hrt : getRootDirDoc.path = "/" := rfl
        rw [hrt, pathJoin_concatPath (by decide) honG]
        unfold concatPath
        rw [if_pos rfl]
        show '/' :: olddoc.name.data = catSegs ([] ++ [olddoc.name.data])
        simp [catSegs]
      · have hpdWF := docWF_iff.mp (hWF.2 pdoc (lookup_id hl).2)
        obtain ⟨qs, hqne, hgq, hqd⟩ := parse_cleanAbs hpdWF.1 hpdWF.2.1
        have hps : pdoc.path = pathOfSegs qs := by
          rw [pathOfSegs_ne hqne]
          exact @strExt pdoc.path ⟨catSegs qs⟩ hqd
        refine ⟨qs, hgq, ?_, Or.inr ⟨pdoc, by rw [hf1]; exact hl, htyp, hps, hqne⟩⟩
        rw [hpj, pathJoin_concatPath hpdWF.1 honG, hps]
        exact congrArg String.data (concatPath_segs qs olddoc.name.data hgq)
  obtain ⟨ps, hgps, hpth1d, hpar1⟩ := hpth1
  have hrpd : r.path.data = catSegs (ps ++ [r.name.data]) := by
    by_cases hnm : data.name ≠ ""
    · rw [hrpath, if_pos hnm, hrname, if_pos hnm]
      have hps1 : pth1 = ⟨catSegs (ps ++ [olddoc.name.data])⟩ :=
        @strExt pth1 ⟨catSegs (ps ++ [olddoc.name.data])⟩ hpth1d
      have hdir : pathDir pth1 = pathOfSegs ps := by
        rw [hps1]
        exact pathDir_concat ps olddoc.name.data hgps honG
      rw [hdir]
      have hgd : GoodSeg data.name.data := by
        have h0 := checkFileName_none_iff.mp hcheck
        rw [if_pos hnm] at h0
        exact h0
      have hjoin := pathJoin_segs ps [data.name.data]
        (by
          intro s hs
          rcases List.mem_append.mp hs with hs | hs
          · exact hgps s hs
          · rw [List.mem_singleton.mp hs]
            exact hgd) (by simp)
      rw [show (⟨joinSegs [data.name.data]⟩ : String) = data.name from strExt rfl] at hjoin
      rw [hjoin]
    · rw [hrpath, if_neg hnm, hrname, if_neg hnm]
      exact hpth1d
  have hgps1 : ∀ s ∈ ps ++ [r.name.data], GoodSeg s := by
    intro s hs
    rcases List.mem_append.mp hs with hs | hs
    · exact hgps s hs
    · rw [List.mem_singleton.mp hs]
      exact hgname
  have hrps : r.path = ⟨catSegs (ps ++ [r.name.data])⟩ :=
    @strExt r.path ⟨catSegs (ps ++ [r.name.data])⟩ hrpd
  have hrps2 : r.path = pathOfSegs (ps ++ [r.name.data]) := by
    rw [pathOfSegs_ne (by simp)]
    exact hrps
  have hrclean : isCleanAbsStr r.path = true :=
    (isCleanAbs_iff r.path).mpr (Or.inr ⟨ps ++ [r.name.data], by simp, hgps1, hrpd⟩)
  have hnopref : hasPrefStr r.path (olddoc.path ++ "/") = false := by
    by_cases hchg : r.path = olddoc.path
    · rw [hchg]
      exact hasPrefStr_self_slash olddoc.path
    · have h0 := safeRename_ok_no_pref (hren hchg)
      rwa [hcleanold, cleanStr_cleanAbs hrclean] at h0
  have hlookD : ∀ i p, lookupDoc db i = some p →
      lookupDoc db' i = some (replOne olddoc r (bulkRW olddoc r.path p)) := by
    intro i p hp
    show db'.docs.find? (fun d => d.objID = i) = _
    rw [hdocs', lookup_two_maps db (bulkRW olddoc r.path) (replOne olddoc r)
      (bulkRW_objID olddoc r.path) (replOne_objID olddoc r hrid) i]
    rw [show db.docs.find? (fun d => d.objID = i) = some p from hp]
    rfl
  have hbulkOld : bulkRW olddoc r.path olddoc = olddoc :=
    bulkRW_id olddoc r.path olddoc
      (by rw [hcleanold]; exact hasPrefStr_self_slash olddoc.path)
  have hrOK : dirPathOK db' r = true := by
    rw [dirPathOK_iff]
    rcases hpar1 with ⟨hfid1, hpsnil⟩ | ⟨pd, hlpd, htypd, hpdpath, hpsne⟩
    · refine ⟨"/", parentPathOf_root (by rw [hrfid]; exact hfid1), ?_⟩
      rw [hrps, hpsnil]
      unfold concatPath
      rw [if_pos rfl]
      apply strExt
      show catSegs ([] ++ [r.name.data]) = '/' :: r.name.data
      simp [catSegs]
    · have hpdmem : pd ∈ db.docs := (lookup_id hlpd).2
      have hpdid : pd.objID = folderID1 := (lookup_id hlpd).1
      have hpdnp : hasPrefStr pd.path (cleanStr olddoc.path ++ "/") = false := by
        rw [hcleanold]
        by_contra hcon
        have hcon' : hasPrefStr pd.path (olddoc.path ++ "/") = true := by
          simpa using hcon
        have hpdps : pd.path = ⟨catSegs ps⟩ := by
          rw [hpdpath, pathOfSegs_ne hpsne]
        have holdps : olddoc.path = ⟨catSegs (qs₀ ++ [olddoc.name.data])⟩ :=
          @strExt olddoc.path ⟨catSegs (qs₀ ++ [olddoc.name.data])⟩ hpd₀
        rw [hpdps, holdps] at hcon'
        obtain ⟨ys, hysne, hpseq⟩ :=
          (hasPref_catSegs_iff (qs₀ ++ [olddoc.name.data]) ps hgx₀ hgps (by simp)).mp hcon'
        have hup : hasPrefStr r.path (olddoc.path ++ "/") = true := by
          rw [hrps, holdps]
          exact (hasPref_catSegs_iff (qs₀ ++ [olddoc.name.data]) (ps ++ [r.name.data])
            hgx₀ hgps1 (by simp)).mpr ⟨ys ++ [r.name.data], by simp, by rw [hpseq]; simp⟩
        rw [hnopref] at hup
        exact absurd hup (by simp)
      have hpdno : pd.objID ≠ olddoc.objID := by
        intro hcon
        have hpold : pd = olddoc := mem_eq_of_pairwise_ids hpw hpdmem hmem hcon
        have holde : olddoc.path = pathOfSegs ps := by
          rw [← hpold]
          exact hpdpath
        have hup : hasPrefStr r.path (olddoc.path ++ "/") = true := by
          rw [hrps, holde, pathOfSegs_ne hpsne]
          exact (hasPref_catSegs_iff ps (ps ++ [r.name.data]) hgps hgps1 hpsne).mpr
            ⟨[r.name.data], by simp, rfl⟩
        rw [hnopref] at hup
        exact absurd hup (by simp)
      have hf1nr : folderID1 ≠ RootFolderID := by
        rw [← hpdid]
        exact (docWF_iff.mp (hWF.2 pd hpdmem)).2.2.2
      have hl' : lookupDoc db' r.folderID = some pd := by
        rw [hrfid]
        have h0 := hlookD folderID1 pd hlpd
        rw [bulkRW_id olddoc r.path pd hpdnp, replOne_miss olddoc r pd hpdno] at h0
        exact h0
      refine ⟨pd.path, parentPathOf_nonroot (by rw [hrfid]; exact hf1nr) hl' htypd, ?_⟩
      rw [hrps, hpdpath]
      exact (concatPath_segs ps r.name.data hgps).symm
  intro d' hd' hty'
  rw [hdocs'] at hd'
  obtain ⟨e1, he1, hde1⟩ := List.mem_map.mp hd'
  obtain ⟨e, he, hee1⟩ := List.mem_map.mp he1
  subst hee1
  subst hde1
  by_cases heo : e.objID = olddoc.objID
  · have he2 : e = olddoc := mem_eq_of_pairwise_ids hpw he hmem heo
    rw [he2, hbulkOld, replOne_hit olddoc r olddoc rfl]
    exact hrOK
  · have hrme : replOne olddoc r (bulkRW olddoc r.path e) = bulkRW olddoc r.path e :=
      replOne_miss olddoc r _ (by rw [bulkRW_objID]; exact heo)
    rw [hrme] at hty' ⊢
    have heWF := docWF_iff.mp (hWF.2 e he)
    by_cases hPe : hasPrefStr e.path (cleanStr olddoc.path ++ "/") = true
    · have hePe : hasPrefStr e.path (olddoc.path ++ "/") = true := by
        have h0 := hPe
        rwa [hcleanold] at h0
      rw [bulkRW_rw olddoc r.path e hPe] at hty' ⊢
      have hety : e.type = DirType := hty'
      obtain ⟨pp, qs, hpp, hcp, hgq, hppsq, hpdE, hparE⟩ := parent_segs db hWF hInv e he hety
      obtain ⟨xs, ys, hxne, hyne, hgxs, hgys, hbd, hpdD, hdropE⟩ :=
        rewrite_of_pref hoclean honr heWF.1 hePe
      have holdxs : olddoc.path = ⟨catSegs xs⟩ := @strExt olddoc.path ⟨catSegs xs⟩ hbd
      have hgqe : ∀ s ∈ qs ++ [e.name.data], GoodSeg s := by
        intro s hs
        rcases List.mem_append.mp hs with hs | hs
        · exact hgq s hs
        · rw [List.mem_singleton.mp hs]
          exact goodSegB_iff.mp heWF.2.2.1
      have hgxy : ∀ s ∈ xs ++ ys, GoodSeg s := by
        intro s hs
        rcases List.mem_append.mp hs with hs | hs
        · exact hgxs s hs
        · exact hgys s hs
      have hyd : qs ++ [e.name.data] = xs ++ ys :=
        catSegs_inj (qs ++ [e.name.data]) (xs ++ ys) hgqe hgxy (by rw [← hpdE, hpdD])
      obtain ⟨ys', yl, hys⟩ : ∃ ys' yl, ys = ys' ++ [yl] := by
        rcases List.eq_nil_or_concat ys with h0 | ⟨a, b, h0⟩
        · exact absurd h0 hyne
        · exact ⟨a, b, h0.trans (List.concat_eq_append a b)⟩
      have hsplit : qs = xs ++ ys' ∧ [e.name.data] = [yl] :=
        List.append_inj' (by rw [hyd, hys, List.append_assoc]) (by simp)
      have hyle : e.name.data = yl := by
        have h0 := hsplit.2
        injection h0 with h1 h2
      have hgys' : ∀ s ∈ ys', GoodSeg s := by
        intro s hs
        exact hgys s (by rw [hys]; exact List.mem_append.mpr (Or.inl hs))
      have hgAY : ∀ s ∈ (ps ++ [r.name.data]) ++ ys', GoodSeg s := by
        intro s hs
        rcases List.mem_append.mp hs with hs | hs
        · exact hgps1 s hs
        · exact hgys' s hs
      have hnewpath : (rwDoc (cleanStr olddoc.path) r.path e).path =
          ⟨catSegs ((ps ++ [r.name.data]) ++ ys)⟩ := by
        show pathJoin r.path (strDrop e.path (strLen (cleanStr olddoc.path) + 1)) = _
        rw [hcleanold, hdropE, hrps2]
        exact pathJoin_segs (ps ++ [r.name.data]) ys
          (by
            intro s hs
            rcases List.mem_append.mp hs with hs | hs
            · exact hgps1 s hs
            · exact hgys s hs) hyne
      rcases hparE with ⟨_, hqnil⟩ | ⟨p, hfne, hlp, htyp, hppath, hqne⟩
      · exfalso
        have h0 : xs ++ ys' = [] := by rw [← hsplit.1, hqnil]
        exact hxne (List.append_eq_nil.mp h0).1
      · rw [dirPathOK_iff]
        by_cases hysn : ys' = []
        · have hqxs : qs = xs := by
            rw [hsplit.1, hysn]
            simp
          have hppold : pp = olddoc.path := by
            rw [hppsq, hqxs, pathOfSegs_ne hxne, ← holdxs]
          have hpold : p = olddoc :=
            mem_eq_of_pairwise_paths hWF.1 (lookup_id hlp).2 hmem (by rw [hppath, hppold])
          have hlpe : lookupDoc db e.folderID = some olddoc := by
            rw [← hpold]
            exact hlp
          have hl' : lookupDoc db' e.folderID = some r := by
            have h0 := hlookD e.folderID olddoc hlpe
            rw [hbulkOld, replOne_hit olddoc r olddoc rfl] at h0
            exact h0
          have hyse : ys = [e.name.data] := by
            rw [hys, ← hyle, hysn]
            simp
          refine ⟨r.path, parentPathOf_nonroot
            (show (rwDoc (cleanStr olddoc.path) r.path e).folderID ≠ RootFolderID from hfne)
            (show lookupDoc db' (rwDoc (cleanStr olddoc.path) r.path e).folderID = some r
              from hl') hrty, ?_⟩
          rw [hnewpath, hyse]
          show (⟨catSegs ((ps ++ [r.name.data]) ++ [e.name.data])⟩ : String) =
            concatPath r.path e.name
          rw [hrps2]
          exact (concatPath_segs (ps ++ [r.name.data]) e.name.data hgps1).symm
        · have hppcat : pp = ⟨catSegs (xs ++ ys')⟩ := by
            rw [hppsq, hsplit.1, pathOfSegs_ne (by rw [← hsplit.1]; exact hqne)]
          have hpmem : p ∈ db.docs := (lookup_id hlp).2
          have hgxy' : ∀ s ∈ xs ++ ys', GoodSeg s := by
            intro s hs
            rcases List.mem_append.mp hs with hs | hs
            · exact hgxs s hs
            · exact hgys' s hs
          have hppref : hasPrefStr p.path (cleanStr olddoc.path ++ "/") = true := by
            rw [hcleanold, hppath, hppcat, holdxs]
            exact (hasPref_catSegs_iff xs (xs ++ ys') hgxs hgxy' hxne).mpr ⟨ys', hysn, rfl⟩
          have hpno : p.objID ≠ olddoc.objID := by
            intro hcon
            have hpold : p = olddoc := mem_eq_of_pairwise_ids hpw hpmem hmem hcon
            have hxx : xs = xs ++ ys' :=
              catSegs_inj xs (xs ++ ys') hgxs hgxy'
                (by
                  rw [← hbd]
                  exact congrArg String.data (by rw [← hpold, hppath, hppcat]))
            have h0 := congrArg List.length hxx
            rw [List.length_append] at h0
            have h1 : ys'.length = 0 := by omega
            exact hysn (List.length_eq_zero.mp h1)
          have hlp' : lookupDoc db' e.folderID =
              some (rwDoc (cleanStr olddoc.path) r.path p) := by
            have h0 := hlookD e.folderID p hlp
            rw [bulkRW_rw olddoc r.path p hppref,
              replOne_miss olddoc r _
                (show (rwDoc (cleanStr olddoc.path) r.path p).objID ≠ olddoc.objID
                  from hpno)] at h0
            exact h0
          have hrwp_path : (rwDoc (cleanStr olddoc.path) r.path p).path =
              ⟨catSegs ((ps ++ [r.name.data]) ++ ys')⟩ := by
            show pathJoin r.path (strDrop p.path (strLen (cleanStr olddoc.path) + 1)) = _
            rw [hcleanold, hppath, hppcat, holdxs, strDrop_concat xs ys' hysn, hrps2]
            exact pathJoin_segs (ps ++ [r.name.data]) ys' hgAY hysn
          refine ⟨(rwDoc (cleanStr olddoc.path) r.path p).path, parentPathOf_nonroot
            (show (rwDoc (cleanStr olddoc.path) r.path e).folderID ≠ RootFolderID from hfne)
            (show lookupDoc db' (rwDoc (cleanStr olddoc.path) r.path e).folderID =
              some (rwDoc (cleanStr olddoc.path) r.path p) from hlp')
            (show (rwDoc (cleanStr olddoc.path) r.path p).type = DirType from htyp), ?_⟩
          rw [hnewpath, hrwp_path]
          have hys2 : (ps ++ [r.name.data]) ++ ys =
              ((ps ++ [r.name.data]) ++ ys') ++ [e.name.data] := by
            rw [hys, ← hyle, ← List.append_assoc]
          rw [hys2]
          show (⟨catSegs (((ps ++ [r.name.data]) ++ ys') ++ [e.name.data])⟩ : String) =
            concatPath (⟨catSegs ((ps ++ [r.name.data]) ++ ys')⟩ : String) e.name
          rw [show (⟨catSegs ((ps ++ [r.name.data]) ++ ys')⟩ : String) =
            pathOfSegs ((ps ++ [r.name.data]) ++ ys') from
            (pathOfSegs_ne (by simp)).symm]
          exact (concatPath_segs ((ps ++ [r.name.data]) ++ ys') e.name.data hgAY).symm
    · rw [bulkRW_id olddoc r.path e (by simpa using hPe)] at hty' ⊢
      obtain ⟨pp, qs, hpp, hcp, hgq, hppsq, hpdE, hparE⟩ := parent_segs db hWF hInv e he hty'
      rw [dirPathOK_iff]
      refine ⟨pp, ?_, hcp⟩
      rcases hparE with ⟨hrt, _⟩ | ⟨p, hfne, hlp, htyp, hppath, hqne⟩
      · have h1 := (@parentPathOf_root db e hrt).symm.trans hpp
        injection h1 with h1
        rw [← h1]
        exact @parentPathOf_root db' e hrt
      · have hppne : pp ≠ "/" := by
          rw [hppsq, pathOfSegs_ne hqne]
          exact catSegs_ne_root hgq hqne
        have hpmem : p ∈ db.docs := (lookup_id hlp).2
        have hpno : p.objID ≠ olddoc.objID := by
          intro hcon
          have hpold : p = olddoc := mem_eq_of_pairwise_ids hpw hpmem hmem hcon
          have hup : hasPrefStr e.path (cleanStr olddoc.path ++ "/") = true := by
            rw [hcleanold, hcp]
            have hppeq : pp = olddoc.path := by rw [← hppath, hpold]
            rw [← hppeq]
            exact concatPath_pref hppne
          exact hPe hup
        have hpnp : hasPrefStr p.path (cleanStr olddoc.path ++ "/") = false := by
          by_contra hcon
          have hcon' : hasPrefStr p.path (cleanStr olddoc.path ++ "/") = true := by
            simpa using hcon
          have hup : hasPrefStr e.path (cleanStr olddoc.path ++ "/") = true := by
            rw [hcp]
            rw [hppath] at hcon'
            exact concatPath_pref_of_pref hppne hcon'
          exact hPe hup
        have hlp' : lookupDoc db' e.folderID = some p := by
          have h0 := hlookD e.folderID p hlp
          rw [bulkRW_id olddoc r.path p hpnp, replOne_miss olddoc r p hpno] at h0
          exact h0
        rw [← hppath]
        exact parentPathOf_nonroot hfne hlp' htyp

/-! ## Claim C1 amended theorem -/

/-- C1 (amended): the cleaned-concatenation path invariant — every stored
directory document's path equals `concatPath` of its parent's path and its
own name, where `concatPath` inserts exactly one slash (a root parent
gives `"/" ++ name`, not `"//" ++ name`) — is preserved by every
successful `CreateDirectory` and by every successful
`ModifyDirectoryMetadata` on a stored directory document, the descendant
fix-ups included. -/
theorem c1_path_invariant_amended :
    (∀ db fs fault doc r db' fs', WFdb db → PathInv db →
      createDirectory db fs fault doc = (.ok r, db', fs') → PathInv db') ∧
    (∀ db fs olddoc data r db' fs', WFdb db → PathInv db → olddoc ∈ db.docs →
      olddoc.type = DirType →
      modifyDirectoryMetadata db fs olddoc data = (.ok r, db', fs') → PathInv db') :=
  ⟨fun db fs fault doc r db' fs' hWF hInv h =>
      createPreservesPathInv db fs fault doc r db' fs' hWF hInv h,
    fun db fs olddoc data r db' fs' hWF hInv hmem hty h =>
      modifyPreservesPathInv db fs olddoc data r db' fs' hWF hInv hmem hty h⟩

/-- C1 witness: renaming "docs" to "archive" in the two-directory example
store satisfies every hypothesis, and the resulting store — the renamed
node and its fixed-up descendant — again satisfies the path invariant. -/
theorem c1_witness :
    WFdb exDb ∧ PathInv exDb ∧ exDocs ∈ exDb.docs ∧ exDocs.type = DirType ∧
    modifyDirectoryMetadata exDb exFs exDocs ⟨"archive", none, none, none⟩ =
      (.ok exArchive, ⟨[exArchive, exPhotosMoved], 3⟩,
        ["/", "/archive", "/archive/photos"]) ∧
    PathInv ⟨[exArchive, exPhotosMoved], 3⟩ :=
  ⟨by decide, by decide, by decide, by decide, by decide,
    c1_path_invariant_amended.2 exDb exFs exDocs ⟨"archive", none, none, none⟩ exArchive
      ⟨[exArchive, exPhotosMoved], 3⟩ ["/", "/archive", "/archive/photos"]
      (by decide) (by decide) (by decide) (by decide) (by decide)⟩

end Vfs
